import Mathlib

/-!
Verification of the rlox-2 lexical scanner (src/scanner.rs, src/token.rs).

The scanner operates on the bytes of the source text (`input.as_bytes()`),
so source text is modelled as `List Nat` (one entry per byte).  Rust's
`f64` literal value is modelled as an exact rational: the only property
claimed of the parsed value is that it is the parse of the full matched
text, which is representation independent.  `Box<dyn Any>` literals are
modelled by the sum type `LitVal`; `Token::new` boxes an empty string, the
code's representation of an absent literal, which is modelled as
`LitVal.str []`.

Partial operations of the source (byte indexing, string slicing, and the
`unwrap` of the numeric parse) are modelled totally with a default, and a
ghost field `ok` records that every such operation was in bounds
(respectively, that the parse succeeded); `ok = true` for every input is
proved below, so the defaults are never actually used.

Loops are modelled with explicit fuel `input.length - current`; every
iteration of every source loop advances `current` by at least one while
`current < input.length`, so this fuel is never exhausted (this is part of
what the characterization lemmas below prove).
-/

/-- `TokenType` from src/token.rs: the closed enumeration of lexical
categories. -/
inductive TokenType where
  | LPAREN | RPAREN | LBRACE | RBRACE | COMMA | DOT | MINUS | PLUS | SEMICOLON | SLASH | STAR
  | BANG | BANGEQ | EQ | EQEQ | GT | LT | GTEQ | LTEQ
  | IDENT | STRING | NUM
  | AND | CLASS | ELSE | FALSE | FUN | FOR | IF | NIL | OR | PRINT | RETURN | SUPER | THIS | TRUE | VAR | WHILE
  | EOF
deriving DecidableEq, Repr

/-- The dynamic content of the `Box<dyn Any>` literal field: the scanner
only ever boxes a `String` or an `f64` (modelled as an exact rational). -/
inductive LitVal where
  | str (s : List Nat)
  | num (q : ℚ)
deriving DecidableEq, Repr

/-- `Token` from src/token.rs.  `lexeme` is the byte slice of the source
text that produced the token. -/
structure Token where
  token_type : TokenType
  lexeme : List Nat
  literal : LitVal
  line : Nat
deriving DecidableEq, Repr

/-- `Scanner` from src/scanner.rs, extended with the externally visible
diagnostic sink (`errors` records the `Lox::error(line, message)` calls in
order) and the ghost in-bounds flag `ok`. -/
structure Scanner where
  input : List Nat
  tokens : List Token
  start : Nat
  current : Nat
  line : Nat
  errors : List (Nat × String)
  ok : Bool
deriving DecidableEq, Repr

/-- `Scanner::is_digit`: `b'0' <= c && c <= b'9'`. -/
def is_digit (c : Nat) : Bool := 48 ≤ c && c ≤ 57

/-- `Scanner::is_alpha`: lowercase or uppercase ASCII letter or underscore. -/
def is_alpha (c : Nat) : Bool := (97 ≤ c && c ≤ 122) || (65 ≤ c && c ≤ 90) || c == 95

/-- `Scanner::is_alphanumeric`. -/
def is_alphanumeric (c : Nat) : Bool := is_alpha c || is_digit c

/-- `Scanner::is_at_end`: `current >= input.len()`. -/
def Scanner.is_at_end (s : Scanner) : Bool := s.input.length ≤ s.current

/-- `Scanner::peek`: 0 (`b'\0'`) at end of input, else the current byte. -/
def Scanner.peek (s : Scanner) : Nat :=
  if s.is_at_end then 0 else s.input.getD s.current 0

/-- `Scanner::peek_next`. -/
def Scanner.peek_next (s : Scanner) : Nat :=
  if s.input.length ≤ s.current + 1 then 0 else s.input.getD (s.current + 1) 0

/-- `Scanner::advance`: return the byte at `current` and step past it.
The returned state's `ok` records that the index was in bounds (in Rust an
out-of-bounds index aborts). -/
def Scanner.advance (s : Scanner) : Nat × Scanner :=
  (s.input.getD s.current 0,
   { s with current := s.current + 1, ok := s.ok && decide (s.current < s.input.length) })

/-- The byte slice `&input[a..b]` (as a total function). -/
def sliceBytes (l : List Nat) (a b : Nat) : List Nat := (l.drop a).take (b - a)

/-- Whether the Rust slice `&input[a..b]` is in bounds (Rust aborts on
`a > b` or `b > len`). -/
def slice_ok (l : List Nat) (a b : Nat) : Bool := decide (a ≤ b) && decide (b ≤ l.length)

/-- `Scanner::add_empty_token`: push `Token::new(t, &input[start..current], line)`;
`Token::new` boxes an empty string as the literal. -/
def Scanner.add_empty_token (s : Scanner) (t : TokenType) : Scanner :=
  { s with tokens := s.tokens ++ [⟨t, sliceBytes s.input s.start s.current, LitVal.str [], s.line⟩],
           ok := s.ok && slice_ok s.input s.start s.current }

/-- `Scanner::add_token`: push `Token::new_literal(t, &input[start..current], literal, line)`. -/
def Scanner.add_token (s : Scanner) (t : TokenType) (lit : LitVal) : Scanner :=
  { s with tokens := s.tokens ++ [⟨t, sliceBytes s.input s.start s.current, lit, s.line⟩],
           ok := s.ok && slice_ok s.input s.start s.current }

/-- `Scanner::match_two_char`: consume the next byte only if it equals `c`. -/
def Scanner.match_two_char (s : Scanner) (c : Nat) : Bool × Scanner :=
  if s.is_at_end then (false, s)
  else if s.input.getD s.current 0 ≠ c then (false, s)
  else (true, { s with current := s.current + 1 })

/-- The comment-skipping loop of `scan_token`'s `/` arm, as written in the
source: `while self.peek() == b'\n' && !self.is_at_end() { self.advance(); }`
(note the condition: it consumes newlines, not non-newlines). -/
def skip_comment_fuel : Nat → Scanner → Scanner
  | 0, s => s
  | n + 1, s =>
    if s.peek = 10 ∧ s.is_at_end = false then skip_comment_fuel n (s.advance).2 else s

def Scanner.skip_comment (s : Scanner) : Scanner :=
  skip_comment_fuel (s.input.length - s.current) s

/-- The scanning loop of `Scanner::string`:
`while self.peek() != b'"' && !self.is_at_end() { if peek == newline then line += 1; advance }`. -/
def string_loop_fuel : Nat → Scanner → Scanner
  | 0, s => s
  | n + 1, s =>
    if s.peek ≠ 34 ∧ s.is_at_end = false then
      string_loop_fuel n ((if s.peek = 10 then { s with line := s.line + 1 } else s).advance).2
    else s

def Scanner.string_loop (s : Scanner) : Scanner :=
  string_loop_fuel (s.input.length - s.current) s

/-- `Scanner::string`: scan to the closing quote; report an unterminated
string at end of input, otherwise consume the closing quote and push a
STRING token whose literal is `&input[start+1..current-1]`. -/
def Scanner.string (s0 : Scanner) : Scanner :=
  let s1 := s0.string_loop
  if s1.is_at_end then { s1 with errors := s1.errors ++ [(s1.line, "Unterminated string.")] }
  else
    let s2 := (s1.advance).2
    let lit := sliceBytes s2.input (s2.start + 1) (s2.current - 1)
    let s3 := { s2 with ok := s2.ok && slice_ok s2.input (s2.start + 1) (s2.current - 1) }
    s3.add_token TokenType.STRING (LitVal.str lit)

/-- The digit-consuming loop of `Scanner::number`:
`while Self::is_digit(self.peek()) { self.advance(); }`. -/
def digits_fuel : Nat → Scanner → Scanner
  | 0, s => s
  | n + 1, s => if is_digit s.peek then digits_fuel n (s.advance).2 else s

def Scanner.digits_loop (s : Scanner) : Scanner :=
  digits_fuel (s.input.length - s.current) s

/-- Decimal value of a digit string (most significant first). -/
def digitsVal (l : List Nat) : Nat := l.foldl (fun a d => a * 10 + (d - 48)) 0

/-- Models `str::parse::<f64>` on the grammar the scanner can produce:
a nonempty digit run, optionally a point followed by a nonempty digit run,
valued exactly (no floating-point rounding).  Other shapes (never produced
by the scanner, as proved below) conservatively fail. -/
def numParse (l : List Nat) : Option ℚ :=
  match l.dropWhile is_digit with
  | [] => if l = [] then none else some (digitsVal l)
  | b :: fs =>
      if b = 46 ∧ l.takeWhile is_digit ≠ [] ∧ fs ≠ [] ∧ fs.all is_digit then
        some ((digitsVal (l.takeWhile is_digit) : ℚ) + (digitsVal fs : ℚ) / 10 ^ fs.length)
      else none

/-- `Scanner::number`: maximal digit run, a point only if followed by a
digit (then a further maximal digit run); parse `&input[start..current]`
and push a NUM token.  A parse failure is the source's `unwrap` aborting,
recorded as `ok := false`. -/
def Scanner.number (s0 : Scanner) : Scanner :=
  let s1 := s0.digits_loop
  let s2 := if s1.peek = 46 ∧ is_digit s1.peek_next then ((s1.advance).2).digits_loop else s1
  let text := sliceBytes s2.input s2.start s2.current
  let s3 := { s2 with ok := s2.ok && slice_ok s2.input s2.start s2.current }
  match numParse text with
  | some q => s3.add_token TokenType.NUM (LitVal.num q)
  | none => { s3 with ok := false }

/-- The alphanumeric-consuming loop of `Scanner::ident`. -/
def ident_fuel : Nat → Scanner → Scanner
  | 0, s => s
  | n + 1, s => if is_alphanumeric s.peek then ident_fuel n (s.advance).2 else s

def Scanner.ident_loop (s : Scanner) : Scanner :=
  ident_fuel (s.input.length - s.current) s

/-- `Scanner::keywords` (as an association list; the source uses a
`HashMap` with exactly these pairs). -/
def keywords : List (List Nat × TokenType) := [
  ([97, 110, 100], TokenType.AND),
  ([99, 108, 97, 115, 115], TokenType.CLASS),
  ([101, 108, 115, 101], TokenType.ELSE),
  ([102, 97, 108, 115, 101], TokenType.FALSE),
  ([102, 111, 114], TokenType.FOR),
  ([102, 117, 110], TokenType.FUN),
  ([105, 102], TokenType.IF),
  ([110, 105, 108], TokenType.NIL),
  ([111, 114], TokenType.OR),
  ([112, 114, 105, 110, 116], TokenType.PRINT),
  ([114, 101, 116, 117, 114, 110], TokenType.RETURN),
  ([115, 117, 112, 101, 114], TokenType.SUPER),
  ([116, 104, 105, 115], TokenType.THIS),
  ([116, 114, 117, 101], TokenType.TRUE),
  ([118, 97, 114], TokenType.VAR),
  ([119, 104, 105, 108, 101], TokenType.WHILE)]

/-- `Scanner::ident`: maximal alphanumeric run, keyword lookup, and a
token via `add_empty_token` in both cases (so the IDENT literal is the
empty payload, not the identifier text). -/
def Scanner.ident (s0 : Scanner) : Scanner :=
  let s1 := s0.ident_loop
  let t := sliceBytes s1.input s1.start s1.current
  let s2 := { s1 with ok := s1.ok && slice_ok s1.input s1.start s1.current }
  match keywords.lookup t with
  | some k => s2.add_empty_token k
  | none => s2.add_empty_token TokenType.IDENT

/-- `Scanner::scan_token`: advance past one byte and dispatch on it. -/
def Scanner.scan_token (s0 : Scanner) : Scanner :=
  let a := s0.advance
  let c := a.1
  let s := a.2
  if c = 40 then s.add_empty_token TokenType.LPAREN
  else if c = 41 then s.add_empty_token TokenType.RPAREN
  else if c = 123 then s.add_empty_token TokenType.LBRACE
  else if c = 125 then s.add_empty_token TokenType.RBRACE
  else if c = 44 then s.add_empty_token TokenType.COMMA
  else if c = 46 then s.add_empty_token TokenType.DOT
  else if c = 45 then s.add_empty_token TokenType.MINUS
  else if c = 43 then s.add_empty_token TokenType.PLUS
  else if c = 59 then s.add_empty_token TokenType.SEMICOLON
  else if c = 42 then s.add_empty_token TokenType.STAR
  else if c = 33 then
    let m := s.match_two_char 61
    if m.1 then m.2.add_empty_token TokenType.BANGEQ else m.2.add_empty_token TokenType.BANG
  else if c = 61 then
    let m := s.match_two_char 61
    if m.1 then m.2.add_empty_token TokenType.EQEQ else m.2.add_empty_token TokenType.EQ
  else if c = 60 then
    let m := s.match_two_char 61
    if m.1 then m.2.add_empty_token TokenType.LTEQ else m.2.add_empty_token TokenType.LT
  else if c = 62 then
    let m := s.match_two_char 61
    if m.1 then m.2.add_empty_token TokenType.GTEQ else m.2.add_empty_token TokenType.GT
  else if c = 47 then
    let m := s.match_two_char 47
    if m.1 then m.2.skip_comment else m.2.add_empty_token TokenType.SLASH
  else if c = 34 then s.string
  else if c = 10 then { s with line := s.line + 1 }
  else if c = 32 ∨ c = 9 ∨ c = 13 then s
  else if is_digit c then s.number
  else if is_alpha c then s.ident
  else { s with errors := s.errors ++ [(s.line, "Unexpected char")] }

/-- The `while !self.is_at_end()` loop of `Scanner::scan_tokens`: set
`start := current` and scan one token, with explicit fuel. -/
def scan_iter : Nat → Scanner → Scanner
  | 0, s => s
  | n + 1, s =>
    if s.is_at_end then s else scan_iter n (Scanner.scan_token { s with start := s.current })

/-- `Scanner::new(input)`. -/
def initScanner (input : List Nat) : Scanner := ⟨input, [], 0, 0, 1, [], true⟩

/-- The scanner state after the scanning loop of `scan_tokens` (the fuel
`input.length + 1` is sufficient: each iteration consumes at least one
byte, as proved below). -/
def scanFinal (input : List Nat) : Scanner :=
  scan_iter (input.length + 1) (initScanner input)

/-- `Scanner::scan_tokens` on a fresh scanner: run the loop, then push
`Token::new(EOF, "", line)`. -/
def scan_tokens (input : List Nat) : List Token :=
  let s := scanFinal input
  s.tokens ++ [⟨TokenType.EOF, [], LitVal.str [], s.line⟩]

/-- The line-tagged messages passed to the diagnostic sink (`Lox::error`)
during a scan of `input`, in order. -/
def scanErrors (input : List Nat) : List (Nat × String) := (scanFinal input).errors

/-- Modelled from the spec: the maximal-munch numeric lexeme — a maximal
digit run, then a point only if it is immediately followed by at least one
digit, then a further maximal digit run.  Used to state that
`Scanner::number` consumes exactly this lexeme. -/
def specNumLex (l : List Nat) : List Nat :=
  match l.dropWhile is_digit with
  | b :: c :: rest2 =>
      if b = 46 ∧ is_digit c then
        l.takeWhile is_digit ++ b :: (c :: rest2).takeWhile is_digit
      else l.takeWhile is_digit
  | _ => l.takeWhile is_digit

/-- The literal-payload shape determined by a token's type: STRING carries
a text payload, NUM a numeric payload, and every other category carries
the empty payload `Token::new` boxes. -/
def litMatches : TokenType → LitVal → Bool
  | TokenType.STRING, LitVal.str _ => true
  | TokenType.NUM, LitVal.num _ => true
  | TokenType.STRING, _ => false
  | TokenType.NUM, _ => false
  | _, l => l == LitVal.str []

/-- The bytes for which `scan_token` has a scanning rule; every other byte
falls through to the unexpected-character report. -/
def recognized (c : Nat) : Bool :=
  c == 40 || c == 41 || c == 123 || c == 125 || c == 44 || c == 46 || c == 45 || c == 43 ||
  c == 59 || c == 42 || c == 33 || c == 61 || c == 60 || c == 62 || c == 47 || c == 34 ||
  c == 10 || c == 32 || c == 9 || c == 13 || is_digit c || is_alpha c

/-- The scan-loop invariant: the in-bounds flag holds, `current` is within
the input, lines are 1-based, token and error lines never exceed the
current line counter and appear in non-decreasing order along the output,
and every token's literal payload matches its category. -/
def ScanInv (s : Scanner) : Prop :=
  s.ok = true ∧ s.current ≤ s.input.length ∧ 1 ≤ s.line ∧
  (∀ t ∈ s.tokens, 1 ≤ t.line ∧ t.line ≤ s.line ∧ litMatches t.token_type t.literal = true) ∧
  List.Pairwise (fun a b => a ≤ b) (s.tokens.map Token.line) ∧
  (∀ e ∈ s.errors, e.1 ≤ s.line) ∧
  List.Pairwise (fun a b => a ≤ b) (s.errors.map Prod.fst)

/-- Position `i` of `l` starts a `//` comment: the byte there is a slash
and the next position holds another slash.  This is the one dispatch arm
whose (defective) inner loop consumes bytes without the newline
bookkeeping of the rest of the scanner. -/
def commentStart (l : List Nat) (i : Nat) : Bool :=
  l.getD i 0 == 47 && decide (i + 1 < l.length) && l.getD (i + 1) 0 == 47

/-- What one iteration of the scanning loop guarantees: the invariant is
preserved, the input is untouched, at least one byte is consumed, the
token and error lists only grow at the end, every token appended by the
step carries the line counter as it stands when the token is pushed (no
arm changes the counter after pushing, so that is the post-step counter),
and the counter grows by exactly the number of newline bytes among the
consumed bytes — except when the step enters the `//` comment loop, which
leaves the counter untouched no matter what it consumes. -/
def StepProp (toks : List Token) (errs : List (Nat × String)) (inp : List Nat) (cur ln : Nat)
    (s' : Scanner) : Prop :=
  ScanInv s' ∧ s'.input = inp ∧ cur < s'.current ∧
  (∃ l, s'.tokens = toks ++ l ∧ ∀ t ∈ l, t.line = s'.line) ∧
  (∃ l, s'.errors = errs ++ l) ∧
  (commentStart inp cur = true → s'.line = ln) ∧
  (commentStart inp cur = false →
    s'.line = ln + (sliceBytes inp cur s'.current).countP (fun x => x == 10))

/-! ## Basic helper lemmas -/

theorem takeWhile_length_le (p : Nat → Bool) (l : List Nat) :
    (l.takeWhile p).length ≤ l.length := by
  conv_rhs => rw [← List.takeWhile_append_dropWhile p l]
  rw [List.length_append]
  omega

theorem takeWhile_append_cons (p : Nat → Bool) (l1 : List Nat) (b : Nat) (l2 : List Nat)
    (h1 : ∀ x ∈ l1, p x = true) (hb : p b = false) :
    (l1 ++ b :: l2).takeWhile p = l1 ∧ (l1 ++ b :: l2).dropWhile p = b :: l2 := by
  induction l1 with
  | nil =>
    rw [List.nil_append]
    exact ⟨List.takeWhile_cons_of_neg (by simp [hb]), List.dropWhile_cons_of_neg (by simp [hb])⟩
  | cons a t ih =>
    have ha : p a = true := h1 a (by simp)
    have hrec := ih (fun x hx => h1 x (by simp [hx]))
    rw [List.cons_append]
    exact ⟨by rw [List.takeWhile_cons_of_pos ha, hrec.1],
           by rw [List.dropWhile_cons_of_pos ha, hrec.2]⟩

theorem is_at_end_true_iff (s : Scanner) : s.is_at_end = true ↔ s.input.length ≤ s.current := by
  simp [Scanner.is_at_end]

theorem is_at_end_false_iff (s : Scanner) : s.is_at_end = false ↔ s.current < s.input.length := by
  simp [Scanner.is_at_end]

theorem advance_snd_of_lt {s : Scanner} (h : s.current < s.input.length) :
    (s.advance).2 = { s with current := s.current + 1 } := by
  simp [Scanner.advance, h]

theorem peek_of_drop_cons {s : Scanner} {b : Nat} {l2 : List Nat}
    (h : s.input.drop s.current = b :: l2) :
    s.peek = b ∧ s.current < s.input.length ∧ s.input.drop (s.current + 1) = l2 := by
  have hlt : s.current < s.input.length := by
    by_contra hc
    rw [List.drop_eq_nil_iff.mpr (by omega)] at h
    cases h
  have hcons := List.drop_eq_getElem_cons hlt
  rw [h] at hcons
  obtain ⟨hb, hl2⟩ := List.cons.inj hcons
  have hend : s.is_at_end = false := (is_at_end_false_iff s).mpr hlt
  refine ⟨?_, hlt, hl2.symm⟩
  rw [Scanner.peek, hend]
  simp [hb, List.getD, List.getElem?_eq_getElem hlt]

theorem peek_of_drop_nil {s : Scanner} (h : s.input.drop s.current = []) :
    s.peek = 0 ∧ s.is_at_end = true := by
  have hle : s.input.length ≤ s.current := List.drop_eq_nil_iff.mp h
  constructor
  · simp [Scanner.peek, Scanner.is_at_end, hle]
  · simp [Scanner.is_at_end, hle]

/-! ## Loop characterizations

Each scanning loop advances `current` by exactly the length of the
corresponding `takeWhile` of the unread input (and the string loop bumps
`line` once per newline consumed); in particular the fuel
`input.length - current` used in the definitions is sufficient. -/

theorem digits_fuel_eq : ∀ (n : Nat) (s : Scanner),
    ((s.input.drop s.current).takeWhile is_digit).length ≤ n →
    digits_fuel n s =
      { s with current := s.current + ((s.input.drop s.current).takeWhile is_digit).length } := by
  intro n
  induction n with
  | zero =>
    intro s h
    have h0 : ((s.input.drop s.current).takeWhile is_digit).length = 0 := Nat.le_zero.mp h
    simp [digits_fuel, h0]
  | succ n ih =>
    intro s h
    cases hdrop : s.input.drop s.current with
    | nil =>
      have hp := peek_of_drop_nil hdrop
      have hfalse : is_digit s.peek = false := by rw [hp.1]; rfl
      simp [digits_fuel, hfalse, hdrop]
    | cons b l2 =>
      obtain ⟨hpk, hlt, hdl⟩ := peek_of_drop_cons hdrop
      by_cases hb : is_digit b = true
      · have hpe : is_digit s.peek = true := by rw [hpk]; exact hb
        have hlen : (l2.takeWhile is_digit).length ≤ n := by
          rw [hdrop, List.takeWhile_cons_of_pos hb] at h
          simpa using h
        have hstep : digits_fuel (n + 1) s = digits_fuel n { s with current := s.current + 1 } := by
          simp [digits_fuel, hpe, advance_snd_of_lt hlt]
        rw [hstep, ih { s with current := s.current + 1 } (by simpa [hdl] using hlen)]
        simp [hdl, List.takeWhile_cons_of_pos hb]
        omega
      · have hpe : is_digit s.peek = false := by rw [hpk]; simpa using hb
        simp [digits_fuel, hpe, List.takeWhile_cons_of_neg hb]

theorem digits_loop_eq (s : Scanner) :
    s.digits_loop =
      { s with current := s.current + ((s.input.drop s.current).takeWhile is_digit).length } := by
  apply digits_fuel_eq
  calc ((s.input.drop s.current).takeWhile is_digit).length
      ≤ (s.input.drop s.current).length := takeWhile_length_le _ _
    _ = s.input.length - s.current := List.length_drop _ _

theorem ident_fuel_eq : ∀ (n : Nat) (s : Scanner),
    ((s.input.drop s.current).takeWhile is_alphanumeric).length ≤ n →
    ident_fuel n s =
      { s with current := s.current + ((s.input.drop s.current).takeWhile is_alphanumeric).length } := by
  intro n
  induction n with
  | zero =>
    intro s h
    have h0 : ((s.input.drop s.current).takeWhile is_alphanumeric).length = 0 := Nat.le_zero.mp h
    simp [ident_fuel, h0]
  | succ n ih =>
    intro s h
    cases hdrop : s.input.drop s.current with
    | nil =>
      have hp := peek_of_drop_nil hdrop
      have hfalse : is_alphanumeric s.peek = false := by rw [hp.1]; rfl
      simp [ident_fuel, hfalse, hdrop]
    | cons b l2 =>
      obtain ⟨hpk, hlt, hdl⟩ := peek_of_drop_cons hdrop
      by_cases hb : is_alphanumeric b = true
      · have hpe : is_alphanumeric s.peek = true := by rw [hpk]; exact hb
        have hlen : (l2.takeWhile is_alphanumeric).length ≤ n := by
          rw [hdrop, List.takeWhile_cons_of_pos hb] at h
          simpa using h
        have hstep : ident_fuel (n + 1) s = ident_fuel n { s with current := s.current + 1 } := by
          simp [ident_fuel, hpe, advance_snd_of_lt hlt]
        rw [hstep, ih { s with current := s.current + 1 } (by simpa [hdl] using hlen)]
        simp [hdl, List.takeWhile_cons_of_pos hb]
        omega
      · have hpe : is_alphanumeric s.peek = false := by rw [hpk]; simpa using hb
        simp [ident_fuel, hpe, List.takeWhile_cons_of_neg hb]

theorem skip_comment_fuel_eq : ∀ (n : Nat) (s : Scanner),
    ((s.input.drop s.current).takeWhile (fun x => x == 10)).length ≤ n →
    skip_comment_fuel n s =
      { s with current :=
          s.current + ((s.input.drop s.current).takeWhile (fun x => x == 10)).length } := by
  intro n
  induction n with
  | zero =>
    intro s h
    have h0 : ((s.input.drop s.current).takeWhile (fun x => x == 10)).length = 0 := Nat.le_zero.mp h
    simp [skip_comment_fuel, h0]
  | succ n ih =>
    intro s h
    cases hdrop : s.input.drop s.current with
    | nil =>
      have hp := peek_of_drop_nil hdrop
      simp [skip_comment_fuel, hp.2, hdrop]
    | cons b l2 =>
      obtain ⟨hpk, hlt, hdl⟩ := peek_of_drop_cons hdrop
      have hend : s.is_at_end = false := (is_at_end_false_iff s).mpr hlt
      by_cases hb : b = 10
      · have htwc : List.takeWhile (fun x => x == 10) (b :: l2) =
            b :: List.takeWhile (fun x => x == 10) l2 :=
          @List.takeWhile_cons_of_pos Nat (fun x => x == 10) b l2 (by simp [hb])
        have hlen : (l2.takeWhile (fun x => x == 10)).length ≤ n := by
          rw [hdrop, htwc] at h
          simpa using h
        have hstep : skip_comment_fuel (n + 1) s =
            skip_comment_fuel n { s with current := s.current + 1 } := by
          simp [skip_comment_fuel, hpk, hb, hend, advance_snd_of_lt hlt]
        rw [hstep, ih { s with current := s.current + 1 } (by simpa [hdl] using hlen)]
        simp [hdl, htwc]
        omega
      · have htwc : List.takeWhile (fun x => x == 10) (b :: l2) = [] :=
          @List.takeWhile_cons_of_neg Nat (fun x => x == 10) b l2 (by simp [hb])
        have hcond : ¬(s.peek = 10 ∧ s.is_at_end = false) := by
          rw [hpk]; exact fun hc => hb hc.1
        simp [skip_comment_fuel, hcond, htwc]

theorem string_fuel_eq : ∀ (n : Nat) (s : Scanner),
    ((s.input.drop s.current).takeWhile (fun x => !(x == 34))).length ≤ n →
    string_loop_fuel n s =
      { s with
        current :=
          s.current + ((s.input.drop s.current).takeWhile (fun x => !(x == 34))).length,
        line :=
          s.line + ((s.input.drop s.current).takeWhile (fun x => !(x == 34))).countP
            (fun x => x == 10) } := by
  intro n
  induction n with
  | zero =>
    intro s h
    have h0 : (s.input.drop s.current).takeWhile (fun x => !(x == 34)) = [] :=
      List.length_eq_zero.mp (Nat.le_zero.mp h)
    simp [string_loop_fuel, h0]
  | succ n ih =>
    intro s h
    cases hdrop : s.input.drop s.current with
    | nil =>
      have hp := peek_of_drop_nil hdrop
      simp [string_loop_fuel, hp.2, hdrop]
    | cons b l2 =>
      obtain ⟨hpk, hlt, hdl⟩ := peek_of_drop_cons hdrop
      have hend : s.is_at_end = false := (is_at_end_false_iff s).mpr hlt
      by_cases hb : b = 34
      · have htwc : List.takeWhile (fun x => !(x == 34)) (b :: l2) = [] :=
          @List.takeWhile_cons_of_neg Nat (fun x => !(x == 34)) b l2 (by simp [hb])
        have hcond : ¬(s.peek ≠ 34 ∧ s.is_at_end = false) := by
          rw [hpk, hb]; exact fun hc => hc.1 rfl
        simp [string_loop_fuel, hcond, htwc]
      · have htwc : List.takeWhile (fun x => !(x == 34)) (b :: l2) =
            b :: List.takeWhile (fun x => !(x == 34)) l2 :=
          @List.takeWhile_cons_of_pos Nat (fun x => !(x == 34)) b l2 (by simp [hb])
        have hlen : (l2.takeWhile (fun x => !(x == 34))).length ≤ n := by
          rw [hdrop, htwc] at h
          simpa using h
        by_cases hnl : b = 10
        · have hstep : string_loop_fuel (n + 1) s =
              string_loop_fuel n { s with current := s.current + 1, line := s.line + 1 } := by
            have hadv : (({ s with line := s.line + 1 } : Scanner).advance).2 =
                { s with current := s.current + 1, line := s.line + 1 } := by
              rw [advance_snd_of_lt (s := { s with line := s.line + 1 }) hlt]
            simp [string_loop_fuel, hpk, hb, hnl, hend, hadv]
          rw [hstep, ih { s with current := s.current + 1, line := s.line + 1 }
            (by simpa [hdl] using hlen)]
          simp [hdl, htwc, List.countP_cons, hnl]
          omega
        · have hstep : string_loop_fuel (n + 1) s =
              string_loop_fuel n { s with current := s.current + 1 } := by
            simp [string_loop_fuel, hpk, hb, hnl, hend, advance_snd_of_lt hlt]
          rw [hstep, ih { s with current := s.current + 1 } (by simpa [hdl] using hlen)]
          simp [hdl, htwc, List.countP_cons, hnl]
          omega

theorem ident_loop_eq (s : Scanner) :
    s.ident_loop =
      { s with current := s.current + ((s.input.drop s.current).takeWhile is_alphanumeric).length } := by
  apply ident_fuel_eq
  calc ((s.input.drop s.current).takeWhile is_alphanumeric).length
      ≤ (s.input.drop s.current).length := takeWhile_length_le _ _
    _ = s.input.length - s.current := List.length_drop _ _

theorem skip_comment_eq (s : Scanner) :
    s.skip_comment =
      { s with current :=
          s.current + ((s.input.drop s.current).takeWhile (fun x => x == 10)).length } := by
  apply skip_comment_fuel_eq
  calc ((s.input.drop s.current).takeWhile (fun x => x == 10)).length
      ≤ (s.input.drop s.current).length := takeWhile_length_le _ _
    _ = s.input.length - s.current := List.length_drop _ _

theorem string_loop_eq (s : Scanner) :
    s.string_loop =
      { s with
        current :=
          s.current + ((s.input.drop s.current).takeWhile (fun x => !(x == 34))).length,
        line :=
          s.line + ((s.input.drop s.current).takeWhile (fun x => !(x == 34))).countP
            (fun x => x == 10) } := by
  apply string_fuel_eq
  calc ((s.input.drop s.current).takeWhile (fun x => !(x == 34))).length
      ≤ (s.input.drop s.current).length := takeWhile_length_le _ _
    _ = s.input.length - s.current := List.length_drop _ _

/-! ## Branch behavior of `Scanner::string` -/

theorem string_success (s : Scanner) (content rest : List Nat)
    (hc : s.current = s.start + 1)
    (hd : s.input.drop s.start = 34 :: (content ++ 34 :: rest))
    (hno : ∀ b ∈ content, b ≠ 34) :
    s.string =
      { s with
        current := s.start + (content.length + 2),
        line := s.line + content.countP (fun x => x == 10),
        tokens := s.tokens ++ [⟨TokenType.STRING, 34 :: (content ++ [34]), LitVal.str content,
          s.line + content.countP (fun x => x == 10)⟩] } := by
  obtain ⟨inp, toks, st, cur, ln, errs, okf⟩ := s
  simp only at hc hd hno ⊢
  subst hc
  have hdc : inp.drop (st + 1) = content ++ 34 :: rest := by
    rw [← List.drop_drop 1 st inp, hd]
    rfl
  have hsplit := takeWhile_append_cons (fun x => !(x == 34)) content 34 rest
    (fun x hx => by simp [hno x hx]) (by simp)
  have hdc2 : inp.drop (st + 1 + content.length) = 34 :: rest := by
    rw [← List.drop_drop content.length (st + 1) inp, hdc, List.drop_left]
  have hlt1 : st + 1 + content.length < inp.length := by
    by_contra hcon
    rw [List.drop_eq_nil_iff.mpr (by omega)] at hdc2
    cases hdc2
  have hloop : Scanner.string_loop ⟨inp, toks, st, st + 1, ln, errs, okf⟩ =
      ⟨inp, toks, st, st + 1 + content.length,
        ln + List.countP (fun x => x == 10) content, errs, okf⟩ := by
    rw [string_loop_eq]
    simp [hdc, hsplit.1]
  have hend1 : Scanner.is_at_end
      ⟨inp, toks, st, st + 1 + content.length,
        ln + List.countP (fun x => x == 10) content, errs, okf⟩ = false := by
    simp only [Scanner.is_at_end]
    simpa using hlt1
  have hidx : st + 1 + content.length + 1 - st = content.length + 2 := by omega
  rw [Scanner.string]
  simp only [hloop, hend1, Bool.false_eq_true, if_false]
  simp [Scanner.advance, Scanner.add_token, slice_ok, sliceBytes, hlt1, hdc, hd, hidx,
    Nat.add_sub_cancel, Nat.add_sub_cancel_left, List.take_left, List.take_succ_cons,
    List.take_append, Nat.le_of_lt hlt1]
  omega

theorem string_unterminated (s : Scanner)
    (hcur : s.current ≤ s.input.length)
    (h34 : ∀ b ∈ s.input.drop s.current, b ≠ 34) :
    s.string =
      { s with
        current := s.input.length,
        line := s.line + (s.input.drop s.current).countP (fun x => x == 10),
        errors := s.errors ++
          [(s.line + (s.input.drop s.current).countP (fun x => x == 10),
            "Unterminated string.")] } := by
  obtain ⟨inp, toks, st, cur, ln, errs, okf⟩ := s
  simp only at hcur h34 ⊢
  have htw : (inp.drop cur).takeWhile (fun x => !(x == 34)) = inp.drop cur :=
    List.takeWhile_eq_self_iff.mpr (fun x hx => by simp [h34 x hx])
  have hloop : Scanner.string_loop ⟨inp, toks, st, cur, ln, errs, okf⟩ =
      ⟨inp, toks, st, cur + (inp.drop cur).length,
        ln + List.countP (fun x => x == 10) (inp.drop cur), errs, okf⟩ := by
    rw [string_loop_eq]
    simp [htw]
  have hcl : cur + (inp.drop cur).length = inp.length := by
    rw [List.length_drop]; omega
  have hend1 : Scanner.is_at_end
      ⟨inp, toks, st, cur + (inp.drop cur).length,
        ln + List.countP (fun x => x == 10) (inp.drop cur), errs, okf⟩ = true := by
    simp only [Scanner.is_at_end]
    simp only [List.length_drop, decide_eq_true_eq]
    omega
  rw [Scanner.string]
  simp only [hloop, hend1, if_true]
  simp only [List.length_drop, Scanner.mk.injEq, and_true, true_and]
  omega

/-! ## Behavior of `Scanner::number` -/

theorem drop_takeWhile_len (p : Nat → Bool) (l : List Nat) :
    l.drop (l.takeWhile p).length = l.dropWhile p := by
  induction l with
  | nil => rfl
  | cons a t ih =>
    by_cases ha : p a = true
    · rw [List.takeWhile_cons_of_pos ha, List.dropWhile_cons_of_pos ha, List.length_cons,
        List.drop_succ_cons, ih]
    · rw [List.takeWhile_cons_of_neg ha, List.dropWhile_cons_of_neg ha]
      rfl

theorem take_takeWhile_len (p : Nat → Bool) (l : List Nat) :
    l.take (l.takeWhile p).length = l.takeWhile p := by
  induction l with
  | nil => rfl
  | cons a t ih =>
    by_cases ha : p a = true
    · rw [List.takeWhile_cons_of_pos ha, List.length_cons, List.take_succ_cons, ih]
    · rw [List.takeWhile_cons_of_neg ha]
      rfl

theorem dropWhile_eq_nil_of_all (p : Nat → Bool) (l : List Nat) (h : ∀ x ∈ l, p x = true) :
    l.dropWhile p = [] := by
  induction l with
  | nil => rfl
  | cons a t ih =>
    rw [List.dropWhile_cons_of_pos (h a (by simp))]
    exact ih fun x hx => h x (by simp [hx])

theorem peek_next_eq_peek_succ (s : Scanner) :
    s.peek_next = Scanner.peek { s with current := s.current + 1 } := by
  simp [Scanner.peek, Scanner.peek_next, Scanner.is_at_end]

theorem number_spec (s : Scanner)
    (hc : s.current = s.start + 1)
    (hcur : s.current ≤ s.input.length)
    (hd0 : is_digit (s.input.getD s.start 0) = true) :
    ∃ q, numParse (specNumLex (s.input.drop s.start)) = some q ∧
      s.start + (specNumLex (s.input.drop s.start)).length ≤ s.input.length ∧
      s.number =
        { s with
          current := s.start + (specNumLex (s.input.drop s.start)).length,
          tokens := s.tokens ++ [⟨TokenType.NUM, specNumLex (s.input.drop s.start),
            LitVal.num q, s.line⟩] } := by
  obtain ⟨inp, toks, st, cur, ln, errs, okf⟩ := s
  simp only at hc hcur hd0 ⊢
  subst hc
  cases hL : inp.drop st with
  | nil =>
    exfalso
    have := List.drop_eq_nil_iff.mp hL
    omega
  | cons d M =>
    obtain ⟨hpk0, hlt0, hdl0⟩ := peek_of_drop_cons (s := ⟨inp, [], 0, st, 1, [], true⟩) hL
    have hgd : inp.getD st 0 = d := by
      have h1 := hpk0
      rw [Scanner.peek] at h1
      rw [if_neg ?side] at h1
      case side =>
        simp only [Scanner.is_at_end]
        simp only [decide_eq_true_eq]
        omega
      exact h1
    have hd' : is_digit d = true := by rwa [hgd] at hd0
    have hMlen : M.length = inp.length - (st + 1) := by rw [← hdl0, List.length_drop]
    have hAle : (M.takeWhile is_digit).length ≤ M.length := takeWhile_length_le _ _
    have hc1 : st + 1 + (M.takeWhile is_digit).length ≤ inp.length := by omega
    have hloop1 : Scanner.digits_loop ⟨inp, toks, st, st + 1, ln, errs, okf⟩ =
        ⟨inp, toks, st, st + 1 + (M.takeWhile is_digit).length, ln, errs, okf⟩ := by
      rw [digits_loop_eq]
      simp [hdl0]
    have hdropc1 : inp.drop (st + 1 + (M.takeWhile is_digit).length) = M.dropWhile is_digit := by
      rw [← List.drop_drop (M.takeWhile is_digit).length (st + 1) inp, hdl0,
        drop_takeWhile_len]
    have hdwcons : (d :: M).dropWhile is_digit = M.dropWhile is_digit :=
      List.dropWhile_cons_of_pos hd'
    have htwcons : (d :: M).takeWhile is_digit = d :: M.takeWhile is_digit :=
      List.takeWhile_cons_of_pos hd'
    have hAdig : ∀ x ∈ d :: M.takeWhile is_digit, is_digit x = true := by
      intro x hx
      rcases List.mem_cons.mp hx with h | h
      · rwa [h]
      · exact List.mem_takeWhile_imp h
    have htext : sliceBytes inp st (st + 1 + (M.takeWhile is_digit).length) =
        d :: M.takeWhile is_digit := by
      rw [sliceBytes, hL]
      have hidx : st + 1 + (M.takeWhile is_digit).length - st =
          (M.takeWhile is_digit).length + 1 := by omega
      rw [hidx, List.take_succ_cons, take_takeWhile_len]
    have nodot :
        (¬(Scanner.peek ⟨inp, toks, st, st + 1 + (M.takeWhile is_digit).length, ln, errs, okf⟩ = 46 ∧
           is_digit (Scanner.peek_next
             ⟨inp, toks, st, st + 1 + (M.takeWhile is_digit).length, ln, errs, okf⟩) = true)) →
        specNumLex (d :: M) = d :: M.takeWhile is_digit →
        ∃ q, numParse (specNumLex (d :: M)) = some q ∧
          st + (specNumLex (d :: M)).length ≤ inp.length ∧
          Scanner.number ⟨inp, toks, st, st + 1, ln, errs, okf⟩ =
            ⟨inp, toks ++ [⟨TokenType.NUM, specNumLex (d :: M), LitVal.num q, ln⟩], st,
              st + (specNumLex (d :: M)).length, ln, errs, okf⟩ := by
      intro hcondF hspec
      have hdwA : (d :: M.takeWhile is_digit).dropWhile is_digit = [] :=
        dropWhile_eq_nil_of_all _ _ hAdig
      have hparse : numParse (d :: M.takeWhile is_digit) =
          some ((digitsVal (d :: M.takeWhile is_digit) : ℚ)) := by
        simp [numParse, hdwA]
      refine ⟨(digitsVal (d :: M.takeWhile is_digit) : ℚ), by rw [hspec]; exact hparse, ?_, ?_⟩
      · rw [hspec, List.length_cons]
        omega
      · rw [Scanner.number]
        simp only [hloop1]
        rw [if_neg hcondF]
        simp only [htext, hparse, hspec]
        simp only [Scanner.add_token, slice_ok, htext]
        have hok1 : (decide (st ≤ st + 1 + (M.takeWhile is_digit).length) &&
            decide (st + 1 + (M.takeWhile is_digit).length ≤ inp.length)) = true := by
          simp only [Bool.and_eq_true, decide_eq_true_eq]
          omega
        simp [hok1, List.length_cons]
        omega
    cases hR : M.dropWhile is_digit with
    | nil =>
      have hdnil : inp.drop (st + 1 + (M.takeWhile is_digit).length) = [] := by
        rw [hdropc1, hR]
      obtain ⟨hpk1, -⟩ := peek_of_drop_nil
        (s := ⟨inp, toks, st, st + 1 + (M.takeWhile is_digit).length, ln, errs, okf⟩) hdnil
      refine nodot (fun hcon => by simp [hpk1] at hcon) ?_
      simp [specNumLex, hdwcons, hR, htwcons]
    | cons b2 R' =>
      have hdc1 : inp.drop (st + 1 + (M.takeWhile is_digit).length) = b2 :: R' := by
        rw [hdropc1, hR]
      obtain ⟨hpk1, hlt1, hdl1⟩ := peek_of_drop_cons
        (s := ⟨inp, toks, st, st + 1 + (M.takeWhile is_digit).length, ln, errs, okf⟩) hdc1
      by_cases hb2 : b2 = 46
      · subst hb2
        cases hR' : R' with
        | nil =>
          have hdn : inp.drop (st + 1 + (M.takeWhile is_digit).length + 1) = [] := by
            rw [hdl1, hR']
          have hpn : Scanner.peek_next
              ⟨inp, toks, st, st + 1 + (M.takeWhile is_digit).length, ln, errs, okf⟩ = 0 := by
            rw [peek_next_eq_peek_succ]
            exact (peek_of_drop_nil
              (s := ⟨inp, toks, st, st + 1 + (M.takeWhile is_digit).length + 1, ln, errs, okf⟩)
              hdn).1
          refine nodot (fun hcon => by simp [hpn, is_digit] at hcon) ?_
          simp [specNumLex, hdwcons, hR, hR', htwcons]
        | cons b3 R'' =>
          have hdn : inp.drop (st + 1 + (M.takeWhile is_digit).length + 1) = b3 :: R'' := by
            rw [hdl1, hR']
          have hpn : Scanner.peek_next
              ⟨inp, toks, st, st + 1 + (M.takeWhile is_digit).length, ln, errs, okf⟩ = b3 := by
            rw [peek_next_eq_peek_succ]
            exact (peek_of_drop_cons
              (s := ⟨inp, toks, st, st + 1 + (M.takeWhile is_digit).length + 1, ln, errs, okf⟩)
              hdn).1
          by_cases hb3 : is_digit b3 = true
          · -- the decimal-point branch: a second digit run is consumed
            have hBne : (b3 :: R'').takeWhile is_digit = b3 :: R''.takeWhile is_digit :=
              List.takeWhile_cons_of_pos hb3
            have hspec : specNumLex (d :: M) =
                (d :: M.takeWhile is_digit) ++ 46 :: (b3 :: R'').takeWhile is_digit := by
              simp [specNumLex, hdwcons, hR, hR', hb3, htwcons, hBne, List.cons_append]
            have hadv : (Scanner.advance
                ⟨inp, toks, st, st + 1 + (M.takeWhile is_digit).length, ln, errs, okf⟩).2 =
                ⟨inp, toks, st, st + 1 + (M.takeWhile is_digit).length + 1, ln, errs, okf⟩ := by
              rw [advance_snd_of_lt hlt1]
            have hloop2 : Scanner.digits_loop
                ⟨inp, toks, st, st + 1 + (M.takeWhile is_digit).length + 1, ln, errs, okf⟩ =
                ⟨inp, toks, st, st + 1 + (M.takeWhile is_digit).length + 1 +
                  ((b3 :: R'').takeWhile is_digit).length, ln, errs, okf⟩ := by
              rw [digits_loop_eq]
              simp [hdn]
            have hlendrop : (b3 :: R'').length =
                inp.length - (st + 1 + (M.takeWhile is_digit).length + 1) := by
              rw [← hdn, List.length_drop]
            have hBle : ((b3 :: R'').takeWhile is_digit).length ≤ (b3 :: R'').length :=
              takeWhile_length_le _ _
            have hc3 : st + 1 + (M.takeWhile is_digit).length + 1 +
                ((b3 :: R'').takeWhile is_digit).length ≤ inp.length := by
              simp only [List.length_cons] at hlendrop hBle
              omega
            have hMsplit : M = M.takeWhile is_digit ++ 46 :: R' := by
              conv_lhs => rw [← List.takeWhile_append_dropWhile is_digit M]
              rw [hR]
            have htext2 : sliceBytes inp st (st + 1 + (M.takeWhile is_digit).length + 1 +
                ((b3 :: R'').takeWhile is_digit).length) =
                (d :: M.takeWhile is_digit) ++ 46 :: (b3 :: R'').takeWhile is_digit := by
              rw [sliceBytes, hL]
              have hidx : st + 1 + (M.takeWhile is_digit).length + 1 +
                  ((b3 :: R'').takeWhile is_digit).length - st =
                  ((M.takeWhile is_digit).length +
                    (((b3 :: R'').takeWhile is_digit).length + 1)) + 1 := by omega
              rw [hidx, List.take_succ_cons]
              rw [List.cons_append]
              congr 1
              nth_rewrite 2 [hMsplit]
              rw [List.take_append]
              congr 1
              rw [List.take_succ_cons]
              congr 1
              rw [hR', take_takeWhile_len]
            have hsplitP := takeWhile_append_cons is_digit (d :: M.takeWhile is_digit) 46
              ((b3 :: R'').takeWhile is_digit) hAdig (by decide)
            have hBall : ((b3 :: R'').takeWhile is_digit).all is_digit = true := List.all_takeWhile
            have hparse2 : numParse ((d :: M.takeWhile is_digit) ++ 46 ::
                (b3 :: R'').takeWhile is_digit) =
                some ((digitsVal (d :: M.takeWhile is_digit) : ℚ) +
                  (digitsVal ((b3 :: R'').takeWhile is_digit) : ℚ) /
                    10 ^ ((b3 :: R'').takeWhile is_digit).length) := by
              simp only [numParse, hsplitP.2, hsplitP.1]
              rw [if_pos (by simp [hBne, hBall, hb3])]
            refine ⟨(digitsVal (d :: M.takeWhile is_digit) : ℚ) +
                (digitsVal ((b3 :: R'').takeWhile is_digit) : ℚ) /
                  10 ^ ((b3 :: R'').takeWhile is_digit).length, ?_, ?_, ?_⟩
            · rw [hspec]
              exact hparse2
            · rw [hspec]
              simp only [List.length_append, List.length_cons]
              omega
            · rw [Scanner.number]
              simp only [hloop1]
              rw [if_pos ⟨hpk1, by rw [hpn]; exact hb3⟩]
              simp only [hadv, hloop2, htext2, hparse2, hspec]
              simp only [Scanner.add_token, slice_ok, htext2]
              have hok2 : (decide (st ≤ st + 1 + (M.takeWhile is_digit).length + 1 +
                  ((b3 :: R'').takeWhile is_digit).length) &&
                  decide (st + 1 + (M.takeWhile is_digit).length + 1 +
                    ((b3 :: R'').takeWhile is_digit).length ≤ inp.length)) = true := by
                simp only [Bool.and_eq_true, decide_eq_true_eq]
                omega
              have hoklt : decide (st + 1 + (M.takeWhile is_digit).length < inp.length) = true := by
                simp only [decide_eq_true_eq]
                exact hlt1
              simp [hok2, hoklt, List.length_append, List.length_cons]
              omega
          · refine nodot (fun hcon => hb3 (by have h2 := hcon.2; rwa [hpn] at h2)) ?_
            simp [specNumLex, hdwcons, hR, hR', hb3, htwcons]
      · refine nodot (fun hcon => hb2 (by have h1 := hcon.1; rwa [hpk1] at h1)) ?_
        cases R' with
        | nil => simp [specNumLex, hdwcons, hR, htwcons]
        | cons x xs => simp [specNumLex, hdwcons, hR, hb2, htwcons]

/-! ## Behavior of `Scanner::ident` -/

theorem lookup_mem (l : List (List Nat × TokenType)) (a : List Nat) (k : TokenType)
    (h : l.lookup a = some k) : ∃ p ∈ l, p.2 = k := by
  induction l with
  | nil => simp [List.lookup] at h
  | cons hd tl ih =>
    obtain ⟨k1, v1⟩ := hd
    rw [List.lookup] at h
    cases hbeq : (a == k1) with
    | true =>
      rw [hbeq] at h
      simp only [Option.some.injEq] at h
      exact ⟨(k1, v1), by simp, h⟩
    | false =>
      rw [hbeq] at h
      obtain ⟨p, hp, hpk⟩ := ih h
      exact ⟨p, by simp [hp], hpk⟩

theorem keywords_lit : ∀ p ∈ keywords, litMatches p.2 (LitVal.str []) = true := by decide

theorem ident_spec (s : Scanner)
    (h1 : s.start ≤ s.current) (h2 : s.current ≤ s.input.length) :
    ∃ k, litMatches k (LitVal.str []) = true ∧
      s.current + ((s.input.drop s.current).takeWhile is_alphanumeric).length ≤ s.input.length ∧
      s.ident =
        { s with
          current := s.current + ((s.input.drop s.current).takeWhile is_alphanumeric).length,
          tokens := s.tokens ++ [⟨k, sliceBytes s.input s.start
            (s.current + ((s.input.drop s.current).takeWhile is_alphanumeric).length),
            LitVal.str [], s.line⟩] } := by
  obtain ⟨inp, toks, st, cur, ln, errs, okf⟩ := s
  simp only at h1 h2 ⊢
  have hWle : ((inp.drop cur).takeWhile is_alphanumeric).length ≤ (inp.drop cur).length :=
    takeWhile_length_le _ _
  have hdl : (inp.drop cur).length = inp.length - cur := List.length_drop _ _
  have hc2 : cur + ((inp.drop cur).takeWhile is_alphanumeric).length ≤ inp.length := by omega
  have hloopI : Scanner.ident_loop ⟨inp, toks, st, cur, ln, errs, okf⟩ =
      ⟨inp, toks, st, cur + ((inp.drop cur).takeWhile is_alphanumeric).length, ln, errs, okf⟩ := by
    rw [ident_loop_eq]
  have hok : slice_ok inp st (cur + ((inp.drop cur).takeWhile is_alphanumeric).length) = true := by
    simp only [slice_ok, Bool.and_eq_true, decide_eq_true_eq]
    omega
  rw [Scanner.ident]
  simp only [hloopI]
  cases hlook : keywords.lookup
      (sliceBytes inp st (cur + ((inp.drop cur).takeWhile is_alphanumeric).length)) with
  | none =>
    refine ⟨TokenType.IDENT, by decide, hc2, ?_⟩
    simp [hlook, Scanner.add_empty_token, hok]
  | some k =>
    refine ⟨k, ?_, hc2, ?_⟩
    · obtain ⟨p, hp, hpk⟩ := lookup_mem _ _ _ hlook
      rw [← hpk]
      exact keywords_lit p hp
    · simp [hlook, Scanner.add_empty_token, hok]

/-! ## The scan-loop invariant -/

theorem ScanInv.extend {s s' : Scanner} (h : ScanInv s)
    (hok : s'.ok = s.ok) (hinp : s'.input = s.input) (hcur : s'.current ≤ s.input.length)
    (hline : s.line ≤ s'.line)
    (htok : s'.tokens = s.tokens ∨ ∃ t, s'.tokens = s.tokens ++ [t] ∧ t.line = s'.line ∧
      litMatches t.token_type t.literal = true)
    (herr : s'.errors = s.errors ∨ ∃ e, s'.errors = s.errors ++ [e] ∧ e.1 = s'.line) :
    ScanInv s' := by
  obtain ⟨h1, h2, h3, h4, h5, h6, h7⟩ := h
  refine ⟨by rw [hok]; exact h1, by rw [hinp]; exact hcur, by omega, ?_, ?_, ?_, ?_⟩
  · rcases htok with he | ⟨t, he, htl, hlit⟩
    · intro t ht
      rw [he] at ht
      exact ⟨(h4 t ht).1, le_trans (h4 t ht).2.1 hline, (h4 t ht).2.2⟩
    · intro u hu
      rw [he] at hu
      rcases List.mem_append.mp hu with hu | hu
      · exact ⟨(h4 u hu).1, le_trans (h4 u hu).2.1 hline, (h4 u hu).2.2⟩
      · simp only [List.mem_singleton] at hu
        subst hu
        refine ⟨?_, le_of_eq htl, hlit⟩
        rw [htl]
        exact le_trans h3 hline
  · rcases htok with he | ⟨t, he, htl, hlit⟩
    · rw [he]; exact h5
    · rw [he, List.map_append, List.pairwise_append]
      refine ⟨h5, by simp, ?_⟩
      intro a ha b hb
      simp only [List.map_cons, List.map_nil, List.mem_singleton] at hb
      subst hb
      obtain ⟨u, hu, rfl⟩ := List.mem_map.mp ha
      rw [htl]
      exact le_trans (h4 u hu).2.1 hline
  · rcases herr with he | ⟨e, he, hel⟩
    · intro x hx
      rw [he] at hx
      exact le_trans (h6 x hx) hline
    · intro x hx
      rw [he] at hx
      rcases List.mem_append.mp hx with hx | hx
      · exact le_trans (h6 x hx) hline
      · simp only [List.mem_singleton] at hx
        subst hx
        exact le_of_eq hel
  · rcases herr with he | ⟨e, he, hel⟩
    · rw [he]; exact h7
    · rw [he, List.map_append, List.pairwise_append]
      refine ⟨h7, by simp, ?_⟩
      intro a ha b hb
      simp only [List.map_cons, List.map_nil, List.mem_singleton] at hb
      subst hb
      obtain ⟨u, hu, rfl⟩ := List.mem_map.mp ha
      rw [hel]
      exact le_trans (h6 u hu) hline

theorem inv_add_empty_succ (inp : List Nat) (toks : List Token) (st cur ln : Nat)
    (errs : List (Nat × String)) (okf : Bool)
    (hInv : ScanInv ⟨inp, toks, st, cur, ln, errs, okf⟩)
    (a b : Nat) (hab : a ≤ b) (hb : b ≤ inp.length) (t : TokenType)
    (hlit : litMatches t (LitVal.str []) = true) :
    ScanInv (Scanner.add_empty_token ⟨inp, toks, a, b, ln, errs, okf⟩ t) := by
  apply ScanInv.extend hInv
  · simp [Scanner.add_empty_token, slice_ok, hab, hb]
  · rfl
  · exact hb
  · exact le_refl ln
  · right
    exact ⟨_, rfl, rfl, hlit⟩
  · left
    rfl

theorem match_two_char_true (s : Scanner) (c : Nat) (h : (s.match_two_char c).1 = true) :
    (s.match_two_char c).2 = { s with current := s.current + 1 } ∧
      s.current < s.input.length ∧ s.input.getD s.current 0 = c := by
  rw [Scanner.match_two_char] at h ⊢
  split_ifs at h ⊢ with h1 h2
  refine ⟨rfl, ?_, not_not.mp h2⟩
  rw [Bool.not_eq_true] at h1
  exact (is_at_end_false_iff s).mp h1

theorem match_two_char_false (s : Scanner) (c : Nat) (h : ¬((s.match_two_char c).1 = true)) :
    (s.match_two_char c).2 = s := by
  rw [Scanner.match_two_char] at h ⊢
  split_ifs at h ⊢
  · rfl
  · rfl
  · exact absurd rfl h

theorem all_of_dropWhile_nil (p : Nat → Bool) (l : List Nat) (h : l.dropWhile p = []) :
    ∀ x ∈ l, p x = true := by
  induction l with
  | nil => simp
  | cons a t ih =>
    by_cases ha : p a = true
    · rw [List.dropWhile_cons_of_pos ha] at h
      intro x hx
      rcases List.mem_cons.mp hx with rfl | hx
      · exact ha
      · exact ih h x hx
    · rw [List.dropWhile_cons_of_neg ha] at h
      cases h

theorem dropWhile_head_false (p : Nat → Bool) (l : List Nat) (q : Nat) (rest : List Nat)
    (h : l.dropWhile p = q :: rest) : p q = false := by
  induction l with
  | nil => cases h
  | cons a t ih =>
    by_cases ha : p a = true
    · rw [List.dropWhile_cons_of_pos ha] at h
      exact ih h
    · rw [List.dropWhile_cons_of_neg ha] at h
      obtain ⟨h1, -⟩ := List.cons.inj h
      rw [← h1]
      rwa [Bool.not_eq_true] at ha

theorem match_two_char_true_mk (inp : List Nat) (toks : List Token) (st cur ln : Nat)
    (errs : List (Nat × String)) (okf : Bool) (c : Nat)
    (h : ((⟨inp, toks, st, cur, ln, errs, okf⟩ : Scanner).match_two_char c).1 = true) :
    ((⟨inp, toks, st, cur, ln, errs, okf⟩ : Scanner).match_two_char c).2 =
      ⟨inp, toks, st, cur + 1, ln, errs, okf⟩ ∧ cur < inp.length ∧ inp.getD cur 0 = c := by
  have hres := match_two_char_true _ _ h
  exact ⟨hres.1, hres.2.1, hres.2.2⟩

theorem drop_cons_getD (l : List Nat) (i : Nat) (h : i < l.length) :
    l.drop i = l.getD i 0 :: l.drop (i + 1) := by
  rw [List.drop_eq_getElem_cons h, List.getD_eq_getElem l 0 h]

theorem sliceBytes_one (l : List Nat) (i : Nat) (h : i < l.length) :
    sliceBytes l i (i + 1) = [l.getD i 0] := by
  rw [sliceBytes, drop_cons_getD l i h]
  have h1 : i + 1 - i = 1 := by omega
  rw [h1]
  rfl

theorem sliceBytes_two (l : List Nat) (i : Nat) (h : i + 1 < l.length) :
    sliceBytes l i (i + 1 + 1) = [l.getD i 0, l.getD (i + 1) 0] := by
  rw [sliceBytes, drop_cons_getD l i (by omega)]
  have h2 : i + 1 + 1 - i = 2 := by omega
  rw [h2, List.take_succ_cons, drop_cons_getD l (i + 1) h]
  rfl

theorem sliceBytes_to_end (l : List Nat) (i : Nat) :
    sliceBytes l i l.length = l.drop i := by
  rw [sliceBytes]
  have h1 : (l.drop i).length ≤ l.length - i := by
    rw [List.length_drop]
  exact List.take_of_length_le h1

theorem commentStart_eq_false (l : List Nat) (i : Nat) (h : ¬ l.getD i 0 = 47) :
    commentStart l i = false := by
  simp only [commentStart, Bool.and_eq_false_iff, beq_eq_false_iff_ne, ne_eq]
  exact Or.inl (Or.inl h)

theorem take_specNumLex (l : List Nat) : l.take (specNumLex l).length = specNumLex l := by
  cases heq : l.dropWhile is_digit with
  | nil =>
    have hs : specNumLex l = l.takeWhile is_digit := by
      simp [specNumLex, heq]
    rw [hs]
    exact take_takeWhile_len is_digit l
  | cons b tl =>
    cases tl with
    | nil =>
      have hs : specNumLex l = l.takeWhile is_digit := by
        simp [specNumLex, heq]
      rw [hs]
      exact take_takeWhile_len is_digit l
    | cons c rest2 =>
      by_cases hbc : b = 46 ∧ is_digit c = true
      · have hs : specNumLex l =
            l.takeWhile is_digit ++ b :: (c :: rest2).takeWhile is_digit := by
          simp only [specNumLex, heq]
          rw [if_pos hbc]
        rw [hs]
        have hl2 : l = l.takeWhile is_digit ++ (b :: c :: rest2) := by
          conv_lhs => rw [← List.takeWhile_append_dropWhile is_digit l]
          rw [heq]
        simp only [List.length_append, List.length_cons]
        nth_rewrite 2 [hl2]
        rw [List.take_append]
        congr 1
        rw [List.take_succ_cons]
        congr 1
        exact take_takeWhile_len is_digit (c :: rest2)
      · have hs : specNumLex l = l.takeWhile is_digit := by
          simp only [specNumLex, heq]
          rw [if_neg hbc]
        rw [hs]
        exact take_takeWhile_len is_digit l

theorem specNumLex_no_nl (l : List Nat) :
    (specNumLex l).countP (fun x => x == 10) = 0 := by
  rw [List.countP_eq_zero]
  intro b hb
  have hmem : is_digit b = true ∨ b = 46 := by
    revert hb
    cases heq : l.dropWhile is_digit with
    | nil =>
      intro hb
      rw [show specNumLex l = l.takeWhile is_digit from by simp [specNumLex, heq]] at hb
      exact Or.inl (List.mem_takeWhile_imp hb)
    | cons d tl =>
      cases tl with
      | nil =>
        intro hb
        rw [show specNumLex l = l.takeWhile is_digit from by simp [specNumLex, heq]] at hb
        exact Or.inl (List.mem_takeWhile_imp hb)
      | cons c rest2 =>
        by_cases hbc : d = 46 ∧ is_digit c = true
        · intro hb
          rw [show specNumLex l = l.takeWhile is_digit ++ d :: (c :: rest2).takeWhile is_digit
            from by simp only [specNumLex, heq]; rw [if_pos hbc]] at hb
          rcases List.mem_append.mp hb with h | h
          · exact Or.inl (List.mem_takeWhile_imp h)
          · rcases List.mem_cons.mp h with h | h
            · exact Or.inr (h.trans hbc.1)
            · exact Or.inl (List.mem_takeWhile_imp h)
        · intro hb
          rw [show specNumLex l = l.takeWhile is_digit from by
            simp only [specNumLex, heq]; rw [if_neg hbc]] at hb
          exact Or.inl (List.mem_takeWhile_imp hb)
  simp only [beq_iff_eq]
  rcases hmem with h | h
  · simp only [is_digit, Bool.and_eq_true, decide_eq_true_eq] at h
    omega
  · omega

theorem alnum_take_no_nl (l : List Nat) :
    ((l.takeWhile is_alphanumeric).countP (fun x => x == 10)) = 0 := by
  rw [List.countP_eq_zero]
  intro b hb
  have h := List.mem_takeWhile_imp hb
  simp only [is_alphanumeric, is_alpha, is_digit, Bool.or_eq_true, Bool.and_eq_true,
    decide_eq_true_eq, beq_iff_eq] at h
  simp only [beq_iff_eq]
  omega

theorem scan_token_step_mk (inp : List Nat) (toks : List Token) (st cur ln : Nat)
    (errs : List (Nat × String)) (okf : Bool)
    (hInv : ScanInv ⟨inp, toks, st, cur, ln, errs, okf⟩)
    (hcl : cur < inp.length) :
    StepProp toks errs inp cur ln (Scanner.scan_token ⟨inp, toks, cur, cur, ln, errs, okf⟩) := by
  have hadv : (Scanner.advance ⟨inp, toks, cur, cur, ln, errs, okf⟩).2 =
      ⟨inp, toks, cur, cur + 1, ln, errs, okf⟩ := by
    rw [advance_snd_of_lt hcl]
  have hfst : (Scanner.advance ⟨inp, toks, cur, cur, ln, errs, okf⟩).1 = inp.getD cur 0 := rfl
  have punct : ∀ t : TokenType, litMatches t (LitVal.str []) = true →
      inp.getD cur 0 ≠ 10 →
      StepProp toks errs inp cur ln
        (Scanner.add_empty_token ⟨inp, toks, cur, cur + 1, ln, errs, okf⟩ t) := by
    intro t hlit hne10
    refine ⟨inv_add_empty_succ inp toks st cur ln errs okf hInv cur (cur + 1)
      (by omega) hcl t hlit, rfl, Nat.lt_succ_self cur, ⟨_, rfl, ?_⟩,
      ⟨[], (List.append_nil _).symm⟩, fun _ => rfl, ?_⟩
    · intro u hu
      simp only [List.mem_singleton] at hu
      subst hu
      rfl
    · intro hnc
      show ln = ln + (sliceBytes inp cur (cur + 1)).countP (fun x => x == 10)
      rw [sliceBytes_one inp cur hcl]
      have hb10 : (inp.getD cur 0 == 10) = false := by
        simp only [beq_eq_false_iff_ne, ne_eq]
        exact hne10
      simp only [List.countP_cons, List.countP_nil, hb10]
      rfl
  have punct2 : ∀ t : TokenType, litMatches t (LitVal.str []) = true → cur + 1 < inp.length →
      inp.getD cur 0 ≠ 10 → inp.getD (cur + 1) 0 ≠ 10 →
      StepProp toks errs inp cur ln
        (Scanner.add_empty_token ⟨inp, toks, cur, cur + 1 + 1, ln, errs, okf⟩ t) := by
    intro t hlit hlt2 hne10a hne10b
    refine ⟨inv_add_empty_succ inp toks st cur ln errs okf hInv cur (cur + 1 + 1)
      (by omega) hlt2 t hlit, rfl, by show cur < cur + 1 + 1; omega, ⟨_, rfl, ?_⟩,
      ⟨[], (List.append_nil _).symm⟩, fun _ => rfl, ?_⟩
    · intro u hu
      simp only [List.mem_singleton] at hu
      subst hu
      rfl
    · intro hnc
      show ln = ln + (sliceBytes inp cur (cur + 1 + 1)).countP (fun x => x == 10)
      rw [sliceBytes_two inp cur hlt2]
      have hb10a : (inp.getD cur 0 == 10) = false := by
        simp only [beq_eq_false_iff_ne, ne_eq]
        exact hne10a
      have hb10b : (inp.getD (cur + 1) 0 == 10) = false := by
        simp only [beq_eq_false_iff_ne, ne_eq]
        exact hne10b
      simp only [List.countP_cons, List.countP_nil, hb10a, hb10b]
      rfl
  rw [Scanner.scan_token]
  simp only [hfst, hadv]
  by_cases h40 : inp.getD cur 0 = 40
  · rw [if_pos h40]
    exact punct TokenType.LPAREN (by decide) (by omega)
  rw [if_neg h40]
  by_cases h41 : inp.getD cur 0 = 41
  · rw [if_pos h41]
    exact punct TokenType.RPAREN (by decide) (by omega)
  rw [if_neg h41]
  by_cases h123 : inp.getD cur 0 = 123
  · rw [if_pos h123]
    exact punct TokenType.LBRACE (by decide) (by omega)
  rw [if_neg h123]
  by_cases h125 : inp.getD cur 0 = 125
  · rw [if_pos h125]
    exact punct TokenType.RBRACE (by decide) (by omega)
  rw [if_neg h125]
  by_cases h44 : inp.getD cur 0 = 44
  · rw [if_pos h44]
    exact punct TokenType.COMMA (by decide) (by omega)
  rw [if_neg h44]
  by_cases h46 : inp.getD cur 0 = 46
  · rw [if_pos h46]
    exact punct TokenType.DOT (by decide) (by omega)
  rw [if_neg h46]
  by_cases h45 : inp.getD cur 0 = 45
  · rw [if_pos h45]
    exact punct TokenType.MINUS (by decide) (by omega)
  rw [if_neg h45]
  by_cases h43 : inp.getD cur 0 = 43
  · rw [if_pos h43]
    exact punct TokenType.PLUS (by decide) (by omega)
  rw [if_neg h43]
  by_cases h59 : inp.getD cur 0 = 59
  · rw [if_pos h59]
    exact punct TokenType.SEMICOLON (by decide) (by omega)
  rw [if_neg h59]
  by_cases h42 : inp.getD cur 0 = 42
  · rw [if_pos h42]
    exact punct TokenType.STAR (by decide) (by omega)
  rw [if_neg h42]
  by_cases h33 : inp.getD cur 0 = 33
  · rw [if_pos h33]
    by_cases hm1 : (Scanner.match_two_char ⟨inp, toks, cur, cur + 1, ln, errs, okf⟩ 61).1 = true
    · rw [if_pos hm1]
      obtain ⟨hm, hlt2, hb2⟩ := match_two_char_true_mk inp toks cur (cur + 1) ln errs okf 61 hm1
      rw [hm]
      exact punct2 TokenType.BANGEQ (by decide) hlt2 (by omega) (by omega)
    · rw [if_neg hm1, match_two_char_false _ _ hm1]
      exact punct TokenType.BANG (by decide) (by omega)
  rw [if_neg h33]
  by_cases h61 : inp.getD cur 0 = 61
  · rw [if_pos h61]
    by_cases hm2 : (Scanner.match_two_char ⟨inp, toks, cur, cur + 1, ln, errs, okf⟩ 61).1 = true
    · rw [if_pos hm2]
      obtain ⟨hm, hlt2, hb2⟩ := match_two_char_true_mk inp toks cur (cur + 1) ln errs okf 61 hm2
      rw [hm]
      exact punct2 TokenType.EQEQ (by decide) hlt2 (by omega) (by omega)
    · rw [if_neg hm2, match_two_char_false _ _ hm2]
      exact punct TokenType.EQ (by decide) (by omega)
  rw [if_neg h61]
  by_cases h60 : inp.getD cur 0 = 60
  · rw [if_pos h60]
    by_cases hm3 : (Scanner.match_two_char ⟨inp, toks, cur, cur + 1, ln, errs, okf⟩ 61).1 = true
    · rw [if_pos hm3]
      obtain ⟨hm, hlt2, hb2⟩ := match_two_char_true_mk inp toks cur (cur + 1) ln errs okf 61 hm3
      rw [hm]
      exact punct2 TokenType.LTEQ (by decide) hlt2 (by omega) (by omega)
    · rw [if_neg hm3, match_two_char_false _ _ hm3]
      exact punct TokenType.LT (by decide) (by omega)
  rw [if_neg h60]
  by_cases h62 : inp.getD cur 0 = 62
  · rw [if_pos h62]
    by_cases hm4 : (Scanner.match_two_char ⟨inp, toks, cur, cur + 1, ln, errs, okf⟩ 61).1 = true
    · rw [if_pos hm4]
      obtain ⟨hm, hlt2, hb2⟩ := match_two_char_true_mk inp toks cur (cur + 1) ln errs okf 61 hm4
      rw [hm]
      exact punct2 TokenType.GTEQ (by decide) hlt2 (by omega) (by omega)
    · rw [if_neg hm4, match_two_char_false _ _ hm4]
      exact punct TokenType.GT (by decide) (by omega)
  rw [if_neg h62]
  by_cases h47 : inp.getD cur 0 = 47
  · rw [if_pos h47]
    by_cases hm5 : (Scanner.match_two_char ⟨inp, toks, cur, cur + 1, ln, errs, okf⟩ 47).1 = true
    · rw [if_pos hm5]
      obtain ⟨hm, hlt2, hb2⟩ := match_two_char_true_mk inp toks cur (cur + 1) ln errs okf 47 hm5
      rw [hm]
      have hske : Scanner.skip_comment ⟨inp, toks, cur, cur + 1 + 1, ln, errs, okf⟩ =
          ⟨inp, toks, cur, cur + 1 + 1 +
            ((inp.drop (cur + 1 + 1)).takeWhile (fun x => x == 10)).length, ln, errs, okf⟩ := by
        rw [skip_comment_eq]
      rw [hske]
      have hkle : ((inp.drop (cur + 1 + 1)).takeWhile (fun x => x == 10)).length ≤
          (inp.drop (cur + 1 + 1)).length := takeWhile_length_le _ _
      have hdle : (inp.drop (cur + 1 + 1)).length = inp.length - (cur + 1 + 1) :=
        List.length_drop _ _
      have hcur3 : cur + 1 + 1 +
          ((inp.drop (cur + 1 + 1)).takeWhile (fun x => x == 10)).length ≤ inp.length := by
        omega
      have hprog3 : cur < cur + 1 + 1 +
          ((inp.drop (cur + 1 + 1)).takeWhile (fun x => x == 10)).length := by
        omega
      have hcs : commentStart inp cur = true := by
        simp only [commentStart, Bool.and_eq_true, beq_iff_eq, decide_eq_true_eq]
        exact ⟨⟨h47, hlt2⟩, hb2⟩
      refine ⟨ScanInv.extend hInv rfl rfl hcur3 (le_refl ln) (Or.inl rfl) (Or.inl rfl),
        rfl, hprog3, ⟨[], (List.append_nil _).symm, ?_⟩, ⟨[], (List.append_nil _).symm⟩,
        fun _ => rfl, ?_⟩
      · intro u hu
        cases hu
      · intro hnc
        rw [hcs] at hnc
        cases hnc
    · rw [if_neg hm5, match_two_char_false _ _ hm5]
      exact punct TokenType.SLASH (by decide) (by omega)
  rw [if_neg h47]
  by_cases h34 : inp.getD cur 0 = 34
  · rw [if_pos h34]
    have hgel : inp.getD cur 0 = inp[cur] := List.getD_eq_getElem inp 0 hcl
    have hdcur : inp.drop cur = 34 :: inp.drop (cur + 1) := by
      rw [List.drop_eq_getElem_cons hcl]
      rw [← hgel, h34]
    cases hsplit : (inp.drop (cur + 1)).dropWhile (fun x => !(x == 34)) with
    | nil =>
      have hall := all_of_dropWhile_nil _ _ hsplit
      have hne34 : ∀ b ∈ inp.drop (cur + 1), b ≠ 34 := fun b hb => by
        simpa using hall b hb
      have hstr : Scanner.string ⟨inp, toks, cur, cur + 1, ln, errs, okf⟩ =
          ⟨inp, toks, cur, inp.length,
            ln + (inp.drop (cur + 1)).countP (fun x => x == 10),
            errs ++ [(ln + (inp.drop (cur + 1)).countP (fun x => x == 10),
              "Unterminated string.")], okf⟩ := by
        rw [string_unterminated ⟨inp, toks, cur, cur + 1, ln, errs, okf⟩ hcl hne34]
      rw [hstr]
      have hline3 : ln ≤ ln + (inp.drop (cur + 1)).countP (fun x => x == 10) :=
        Nat.le_add_right _ _
      refine ⟨ScanInv.extend hInv rfl rfl (le_refl _) hline3 (Or.inl rfl)
        (Or.inr ⟨_, rfl, rfl⟩), rfl, hcl, ⟨[], (List.append_nil _).symm, ?_⟩, ⟨_, rfl⟩,
        ?_, ?_⟩
      · intro u hu
        cases hu
      · intro hc
        rw [commentStart_eq_false inp cur (by omega)] at hc
        cases hc
      · intro hnc
        show ln + (inp.drop (cur + 1)).countP (fun x => x == 10) =
          ln + (sliceBytes inp cur inp.length).countP (fun x => x == 10)
        rw [sliceBytes_to_end, hdcur]
        simp [List.countP_cons]
    | cons q rest =>
      have hq : q = 34 := by
        have := dropWhile_head_false _ _ _ _ hsplit
        simpa using this
      subst hq
      have hdecomp : inp.drop (cur + 1) =
          (inp.drop (cur + 1)).takeWhile (fun x => !(x == 34)) ++ 34 :: rest := by
        conv_lhs => rw [← List.takeWhile_append_dropWhile (fun x => !(x == 34))
          (inp.drop (cur + 1))]
        rw [hsplit]
      have hno : ∀ b ∈ (inp.drop (cur + 1)).takeWhile (fun x => !(x == 34)), b ≠ 34 := by
        intro b hb
        have := List.mem_takeWhile_imp hb
        simpa using this
      have hd : inp.drop cur =
          34 :: ((inp.drop (cur + 1)).takeWhile (fun x => !(x == 34)) ++ 34 :: rest) := by
        rw [hdcur]
        congr 1
      have hlen : ((inp.drop (cur + 1)).takeWhile (fun x => !(x == 34))).length + 1 + rest.length =
          inp.length - (cur + 1) := by
        have := congrArg List.length hdecomp
        rw [List.length_drop] at this
        simp only [List.length_append, List.length_cons] at this
        omega
      have hsucc : Scanner.string ⟨inp, toks, cur, cur + 1, ln, errs, okf⟩ =
          ⟨inp,
            toks ++ [⟨TokenType.STRING,
              34 :: ((inp.drop (cur + 1)).takeWhile (fun x => !(x == 34)) ++ [34]),
              LitVal.str ((inp.drop (cur + 1)).takeWhile (fun x => !(x == 34))),
              ln + ((inp.drop (cur + 1)).takeWhile (fun x => !(x == 34))).countP
                (fun x => x == 10)⟩],
            cur,
            cur + (((inp.drop (cur + 1)).takeWhile (fun x => !(x == 34))).length + 2),
            ln + ((inp.drop (cur + 1)).takeWhile (fun x => !(x == 34))).countP
              (fun x => x == 10), errs, okf⟩ := by
        rw [string_success ⟨inp, toks, cur, cur + 1, ln, errs, okf⟩
          ((inp.drop (cur + 1)).takeWhile (fun x => !(x == 34))) rest rfl hd hno]
      rw [hsucc]
      have hcur4 : cur + (((inp.drop (cur + 1)).takeWhile (fun x => !(x == 34))).length + 2)
          ≤ inp.length := by
        omega
      have hline4 : ln ≤ ln + ((inp.drop (cur + 1)).takeWhile
          (fun x => !(x == 34))).countP (fun x => x == 10) := Nat.le_add_right _ _
      have hprog4 : cur < cur + (((inp.drop (cur + 1)).takeWhile
          (fun x => !(x == 34))).length + 2) := by
        omega
      have hslice34 : sliceBytes inp cur
          (cur + (((inp.drop (cur + 1)).takeWhile (fun x => !(x == 34))).length + 2)) =
          34 :: ((inp.drop (cur + 1)).takeWhile (fun x => !(x == 34)) ++ [34]) := by
        rw [sliceBytes]
        have hidx : cur + (((inp.drop (cur + 1)).takeWhile (fun x => !(x == 34))).length + 2)
            - cur =
            ((inp.drop (cur + 1)).takeWhile (fun x => !(x == 34))).length + 1 + 1 := by
          omega
        rw [hidx, hdcur, List.take_succ_cons]
        congr 1
        nth_rewrite 2 [hdecomp]
        rw [List.take_append]
        rfl
      refine ⟨ScanInv.extend hInv rfl rfl hcur4 hline4
        (Or.inr ⟨_, rfl, rfl, rfl⟩) (Or.inl rfl), rfl, hprog4, ⟨_, rfl, ?_⟩,
        ⟨[], (List.append_nil _).symm⟩, ?_, ?_⟩
      · intro u hu
        simp only [List.mem_singleton] at hu
        subst hu
        rfl
      · intro hc
        rw [commentStart_eq_false inp cur (by omega)] at hc
        cases hc
      · intro hnc
        show ln + ((inp.drop (cur + 1)).takeWhile (fun x => !(x == 34))).countP
            (fun x => x == 10) =
          ln + (sliceBytes inp cur
            (cur + (((inp.drop (cur + 1)).takeWhile
              (fun x => !(x == 34))).length + 2))).countP (fun x => x == 10)
        rw [hslice34]
        simp [List.countP_cons, List.countP_append]
  rw [if_neg h34]
  by_cases h10 : inp.getD cur 0 = 10
  · rw [if_pos h10]
    refine ⟨ScanInv.extend hInv rfl rfl (by exact hcl) (Nat.le_succ ln) (Or.inl rfl)
      (Or.inl rfl), rfl, Nat.lt_succ_self cur, ⟨[], (List.append_nil _).symm, ?_⟩,
      ⟨[], (List.append_nil _).symm⟩, ?_, ?_⟩
    · intro u hu
      cases hu
    · intro hc
      rw [commentStart_eq_false inp cur (by omega)] at hc
      cases hc
    · intro hnc
      show ln + 1 = ln + (sliceBytes inp cur (cur + 1)).countP (fun x => x == 10)
      rw [sliceBytes_one inp cur hcl, h10]
      simp
  rw [if_neg h10]
  by_cases hws : inp.getD cur 0 = 32 ∨ inp.getD cur 0 = 9 ∨ inp.getD cur 0 = 13
  · rw [if_pos hws]
    refine ⟨ScanInv.extend hInv rfl rfl (by exact hcl) (le_refl ln) (Or.inl rfl) (Or.inl rfl),
      rfl, Nat.lt_succ_self cur, ⟨[], (List.append_nil _).symm, ?_⟩,
      ⟨[], (List.append_nil _).symm⟩, fun _ => rfl, ?_⟩
    · intro u hu
      cases hu
    · intro hnc
      show ln = ln + (sliceBytes inp cur (cur + 1)).countP (fun x => x == 10)
      rw [sliceBytes_one inp cur hcl]
      rcases hws with h | h | h <;> rw [h] <;> simp
  rw [if_neg hws]
  by_cases hdig : is_digit (inp.getD cur 0) = true
  · rw [if_pos hdig]
    obtain ⟨q, hq, hle, heq⟩ := number_spec ⟨inp, toks, cur, cur + 1, ln, errs, okf⟩ rfl hcl hdig
    rw [heq]
    have hne : specNumLex (inp.drop cur) ≠ [] := by
      intro hnil
      rw [hnil] at hq
      simp [numParse] at hq
    have hpos : 0 < (specNumLex (inp.drop cur)).length := List.length_pos.mpr hne
    refine ⟨ScanInv.extend hInv rfl rfl hle (le_refl ln) (Or.inr ⟨_, rfl, rfl, rfl⟩)
      (Or.inl rfl), rfl, ?_, ⟨_, rfl, ?_⟩, ⟨[], (List.append_nil _).symm⟩,
      fun _ => rfl, ?_⟩
    · show cur < cur + (specNumLex (inp.drop cur)).length
      omega
    · intro u hu
      simp only [List.mem_singleton] at hu
      subst hu
      rfl
    · intro hnc
      show ln = ln + (sliceBytes inp cur
        (cur + (specNumLex (inp.drop cur)).length)).countP (fun x => x == 10)
      have hsl : sliceBytes inp cur (cur + (specNumLex (inp.drop cur)).length) =
          specNumLex (inp.drop cur) := by
        rw [sliceBytes]
        have hidx : cur + (specNumLex (inp.drop cur)).length - cur =
            (specNumLex (inp.drop cur)).length := by
          omega
        rw [hidx, take_specNumLex]
      rw [hsl, specNumLex_no_nl]
      rfl
  rw [if_neg hdig]
  by_cases halpha : is_alpha (inp.getD cur 0) = true
  · rw [if_pos halpha]
    obtain ⟨k, hk, hle, heq⟩ := ident_spec ⟨inp, toks, cur, cur + 1, ln, errs, okf⟩
      (Nat.le_succ cur) hcl
    rw [heq]
    refine ⟨ScanInv.extend hInv rfl rfl hle (le_refl ln) (Or.inr ⟨_, rfl, rfl, hk⟩)
      (Or.inl rfl), rfl, ?_, ⟨_, rfl, ?_⟩, ⟨[], (List.append_nil _).symm⟩,
      fun _ => rfl, ?_⟩
    · show cur < cur + 1 + ((inp.drop (cur + 1)).takeWhile is_alphanumeric).length
      omega
    · intro u hu
      simp only [List.mem_singleton] at hu
      subst hu
      rfl
    · intro hnc
      show ln = ln + (sliceBytes inp cur
        (cur + 1 + ((inp.drop (cur + 1)).takeWhile is_alphanumeric).length)).countP
        (fun x => x == 10)
      have hcb : (inp.getD cur 0 == 10) = false := by
        simp only [is_alpha, Bool.or_eq_true, Bool.and_eq_true, decide_eq_true_eq,
          beq_iff_eq] at halpha
        simp only [beq_eq_false_iff_ne, ne_eq]
        omega
      have hsl : sliceBytes inp cur
          (cur + 1 + ((inp.drop (cur + 1)).takeWhile is_alphanumeric).length) =
          inp.getD cur 0 :: (inp.drop (cur + 1)).takeWhile is_alphanumeric := by
        rw [sliceBytes]
        have hidx : cur + 1 + ((inp.drop (cur + 1)).takeWhile is_alphanumeric).length - cur =
            ((inp.drop (cur + 1)).takeWhile is_alphanumeric).length + 1 := by
          omega
        rw [hidx, drop_cons_getD inp cur hcl, List.take_succ_cons, take_takeWhile_len]
      rw [hsl]
      simp only [List.countP_cons, alnum_take_no_nl, hcb]
      rfl
  rw [if_neg halpha]
  refine ⟨ScanInv.extend hInv rfl rfl (by exact hcl) (le_refl ln) (Or.inl rfl)
    (Or.inr ⟨_, rfl, rfl⟩), rfl, Nat.lt_succ_self cur, ⟨[], (List.append_nil _).symm, ?_⟩,
    ⟨_, rfl⟩, fun _ => rfl, ?_⟩
  · intro u hu
    cases hu
  · intro hnc
    show ln = ln + (sliceBytes inp cur (cur + 1)).countP (fun x => x == 10)
    rw [sliceBytes_one inp cur hcl]
    have hb10 : (inp.getD cur 0 == 10) = false := by
      simp only [beq_eq_false_iff_ne, ne_eq]
      exact h10
    simp only [List.countP_cons, List.countP_nil, hb10]
    rfl

theorem scan_token_step (s0 : Scanner) (hInv : ScanInv s0) (hend : s0.is_at_end = false) :
    StepProp s0.tokens s0.errors s0.input s0.current s0.line
      (Scanner.scan_token { s0 with start := s0.current }) := by
  obtain ⟨inp, toks, st, cur, ln, errs, okf⟩ := s0
  exact scan_token_step_mk inp toks st cur ln errs okf hInv ((is_at_end_false_iff _).mp hend)

theorem scan_iter_all : ∀ (n : Nat) (s : Scanner), ScanInv s →
    ScanInv (scan_iter n s) ∧ (scan_iter n s).input = s.input ∧
    (s.input.length ≤ s.current + n → (scan_iter n s).is_at_end = true) ∧
    (∃ l, (scan_iter n s).tokens = s.tokens ++ l) ∧
    (∃ l, (scan_iter n s).errors = s.errors ++ l) := by
  intro n
  induction n with
  | zero =>
    intro s hInv
    refine ⟨hInv, rfl, ?_, ⟨[], (List.append_nil _).symm⟩, ⟨[], (List.append_nil _).symm⟩⟩
    intro hle
    show s.is_at_end = true
    rw [is_at_end_true_iff]
    omega
  | succ n ih =>
    intro s hInv
    by_cases hend : s.is_at_end = true
    · have hsame : scan_iter (n + 1) s = s := by
        simp [scan_iter, hend]
      rw [hsame]
      exact ⟨hInv, rfl, fun _ => hend, ⟨[], (List.append_nil _).symm⟩,
        ⟨[], (List.append_nil _).symm⟩⟩
    · have hend' : s.is_at_end = false := by rwa [Bool.not_eq_true] at hend
      obtain ⟨hInv1, hinp1, hprog1, htoks1, herrs1, -, -⟩ := scan_token_step s hInv hend'
      have hit : scan_iter (n + 1) s =
          scan_iter n (Scanner.scan_token { s with start := s.current }) := by
        simp [scan_iter, hend']
      rw [hit]
      obtain ⟨ih1, ih2, ih3, ih4, ih5⟩ := ih _ hInv1
      refine ⟨ih1, by rw [ih2, hinp1], ?_, ?_, ?_⟩
      · intro hle
        apply ih3
        rw [hinp1]
        omega
      · obtain ⟨l1, hl1, -⟩ := htoks1
        obtain ⟨l2, hl2⟩ := ih4
        exact ⟨l1 ++ l2, by rw [hl2, hl1, List.append_assoc]⟩
      · obtain ⟨l1, hl1⟩ := herrs1
        obtain ⟨l2, hl2⟩ := ih5
        exact ⟨l1 ++ l2, by rw [hl2, hl1, List.append_assoc]⟩

theorem initScanner_inv (input : List Nat) : ScanInv (initScanner input) :=
  ⟨rfl, Nat.zero_le _, le_refl 1, by simp [initScanner], by simp [initScanner],
    by simp [initScanner], by simp [initScanner]⟩

theorem scanFinal_props (input : List Nat) :
    ScanInv (scanFinal input) ∧ (scanFinal input).input = input ∧
    (scanFinal input).is_at_end = true ∧
    (∃ l, (scanFinal input).tokens = l) := by
  obtain ⟨h1, h2, h3, h4, h5⟩ :=
    scan_iter_all (input.length + 1) (initScanner input) (initScanner_inv input)
  refine ⟨h1, h2, h3 ?_, ⟨_, rfl⟩⟩
  show input.length ≤ 0 + (input.length + 1)
  omega

/-! ## The unexpected-character branch -/

theorem scan_token_unexpected (s : Scanner) (hlt : s.current < s.input.length)
    (hb : recognized (s.input.getD s.current 0) = false) :
    Scanner.scan_token { s with start := s.current } =
      { s with
        start := s.current, current := s.current + 1,
        errors := s.errors ++ [(s.line, "Unexpected char")] } := by
  obtain ⟨inp, toks, st, cur, ln, errs, okf⟩ := s
  simp only at hlt hb ⊢
  have hadv : (Scanner.advance ⟨inp, toks, cur, cur, ln, errs, okf⟩).2 =
      ⟨inp, toks, cur, cur + 1, ln, errs, okf⟩ := by
    rw [advance_snd_of_lt hlt]
  have hfst : (Scanner.advance ⟨inp, toks, cur, cur, ln, errs, okf⟩).1 = inp.getD cur 0 := rfl
  have hne : ∀ m : Nat, recognized m = true → ¬ inp.getD cur 0 = m := by
    intro m hm heq
    rw [heq] at hb
    rw [hb] at hm
    cases hm
  have hrec_dig : ∀ c : Nat, is_digit c = true → recognized c = true := by
    intro c h
    simp [recognized, h]
  have hrec_alpha : ∀ c : Nat, is_alpha c = true → recognized c = true := by
    intro c h
    simp [recognized, h]
  have hdigf : ¬ is_digit (inp.getD cur 0) = true := by
    intro h
    have hr := hrec_dig _ h
    rw [hb] at hr
    cases hr
  have halphaf : ¬ is_alpha (inp.getD cur 0) = true := by
    intro h
    have hr := hrec_alpha _ h
    rw [hb] at hr
    cases hr
  have hwsf : ¬(inp.getD cur 0 = 32 ∨ inp.getD cur 0 = 9 ∨ inp.getD cur 0 = 13) := by
    rintro (h | h | h)
    · exact hne 32 (by decide) h
    · exact hne 9 (by decide) h
    · exact hne 13 (by decide) h
  show Scanner.scan_token ⟨inp, toks, cur, cur, ln, errs, okf⟩ =
    ⟨inp, toks, cur, cur + 1, ln, errs ++ [(ln, "Unexpected char")], okf⟩
  rw [Scanner.scan_token]
  simp only [hfst, hadv]
  rw [if_neg (hne 40 (by decide)), if_neg (hne 41 (by decide)), if_neg (hne 123 (by decide)),
    if_neg (hne 125 (by decide)), if_neg (hne 44 (by decide)), if_neg (hne 46 (by decide)),
    if_neg (hne 45 (by decide)), if_neg (hne 43 (by decide)), if_neg (hne 59 (by decide)),
    if_neg (hne 42 (by decide)), if_neg (hne 33 (by decide)), if_neg (hne 61 (by decide)),
    if_neg (hne 60 (by decide)), if_neg (hne 62 (by decide)), if_neg (hne 47 (by decide)),
    if_neg (hne 34 (by decide)), if_neg (hne 10 (by decide)), if_neg hwsf, if_neg hdigf,
    if_neg halphaf]

theorem recognized_false_of_ge (b : Nat) (h : 128 ≤ b) : recognized b = false := by
  simp only [recognized, is_digit, is_alpha, Bool.or_eq_false_iff, Bool.and_eq_false_iff,
    beq_eq_false_iff_ne, ne_eq, decide_eq_false_iff_not, Nat.not_le]
  omega

theorem scan_iter_unexpected : ∀ (n : Nat) (s : Scanner),
    s.current + n ≤ s.input.length →
    (∀ k, k < n → recognized (s.input.getD (s.current + k) 0) = false) →
    (scan_iter n s).tokens = s.tokens ∧
    (scan_iter n s).errors = s.errors ++ List.replicate n (s.line, "Unexpected char") ∧
    (scan_iter n s).line = s.line ∧
    (scan_iter n s).current = s.current + n := by
  intro n
  induction n with
  | zero =>
    intro s h1 h2
    exact ⟨rfl, (List.append_nil _).symm, rfl, rfl⟩
  | succ n ih =>
    intro s h1 h2
    have hlt : s.current < s.input.length := by omega
    have hend : s.is_at_end = false := (is_at_end_false_iff s).mpr hlt
    have hb := h2 0 (Nat.succ_pos n)
    rw [Nat.add_zero] at hb
    have hstep := scan_token_unexpected s hlt hb
    have hit : scan_iter (n + 1) s =
        scan_iter n (Scanner.scan_token { s with start := s.current }) := by
      simp [scan_iter, hend]
    rw [hit, hstep]
    obtain ⟨i1, i2, i3, i4⟩ := ih { s with
        start := s.current, current := s.current + 1,
        errors := s.errors ++ [(s.line, "Unexpected char")] }
      (by show s.current + 1 + n ≤ s.input.length; omega)
      (by
        intro k hk
        show recognized (s.input.getD (s.current + 1 + k) 0) = false
        have hh := h2 (k + 1) (by omega)
        rw [show s.current + 1 + k = s.current + (k + 1) from by omega]
        exact hh)
    refine ⟨i1, ?_, i3, ?_⟩
    · rw [i2]
      show (s.errors ++ [(s.line, "Unexpected char")]) ++
          List.replicate n (s.line, "Unexpected char") = _
      rw [List.append_assoc, List.replicate_succ]
      rfl
    · rw [i4]
      show s.current + 1 + n = s.current + (n + 1)
      omega

/-! ## Claims -/

/-- C1: the spec says `//` discards the rest of the line with no token; the
code's comment loop has an inverted condition (`peek() == b'\n'`), so the
comment text is NOT discarded: scanning "//a" tokenizes `a` as an IDENT
token instead of skipping it.  (The lone-slash half of the claim does hold:
"/a" yields a SLASH token then the IDENT.)  This theorem evaluates the
code at the failing input. -/
theorem c1_comment_not_discarded :
    scan_tokens [47, 47, 97] =
      [⟨TokenType.IDENT, [97], LitVal.str [], 1⟩, ⟨TokenType.EOF, [], LitVal.str [], 1⟩] ∧
    scan_tokens [47, 97] =
      [⟨TokenType.SLASH, [47], LitVal.str [], 1⟩, ⟨TokenType.IDENT, [97], LitVal.str [], 1⟩,
        ⟨TokenType.EOF, [], LitVal.str [], 1⟩] := by
  constructor
  · decide
  · decide

/-- C2: for every input the token sequence ends with the EOF token carrying
an empty lexeme, the empty literal payload of `Token::new`, and the final
line counter; the empty input yields exactly that one token at line 1. -/
theorem c2_eof_token :
    (∀ input : List Nat, (scan_tokens input).getLast? =
      some ⟨TokenType.EOF, [], LitVal.str [], (scanFinal input).line⟩) ∧
    scan_tokens [] = [⟨TokenType.EOF, [], LitVal.str [], 1⟩] := by
  constructor
  · intro input
    show ((scanFinal input).tokens ++
      [(⟨TokenType.EOF, [], LitVal.str [], (scanFinal input).line⟩ : Token)]).getLast? = _
    exact List.getLast?_concat _
  · decide

/-- C3 counterexample: the claim says a multi-line string token carries the
line of its opening quote.  Scanning the five bytes of a quoted string with
an embedded newline produces a STRING token tagged with line 2 (the closing
quote's line), not line 1, so the token-line list is [2, 2], not the
[1, 2] the claim predicts. -/
theorem c3_counterexample :
    (scan_tokens [34, 97, 10, 98, 34]).map Token.line = [2, 2] ∧
    ¬ (scan_tokens [34, 97, 10, 98, 34]).map Token.line = [1, 2] := by
  constructor
  · decide
  · decide

/-- C3 (amended): line numbers are 1-based and non-decreasing along the
output; the `//` comment loop never changes the line counter (so newlines
it consumes are not counted); every iteration of the scanning loop, from
any reachable state, pushes only tokens tagged with the line counter as it
stands at the moment of the push, and advances the counter by exactly the
number of newline bytes among the bytes it consumes — except an iteration
entering the `//` comment loop, which leaves the counter unchanged no
matter what it consumes; a well-formed string token is tagged with the
line reached after counting the newlines inside the literal, i.e. the
closing quote's line. -/
theorem c3_lines_amended :
    (∀ input : List Nat, (initScanner input).line = 1 ∧
      List.Pairwise (fun a b => a ≤ b) ((scan_tokens input).map Token.line) ∧
      ∀ t ∈ scan_tokens input, 1 ≤ t.line) ∧
    (∀ s : Scanner, (s.skip_comment).line = s.line) ∧
    (∀ s : Scanner, ScanInv s → s.is_at_end = false →
      (∃ l, (Scanner.scan_token { s with start := s.current }).tokens = s.tokens ++ l ∧
        ∀ t ∈ l, t.line = (Scanner.scan_token { s with start := s.current }).line) ∧
      (commentStart s.input s.current = true →
        (Scanner.scan_token { s with start := s.current }).line = s.line) ∧
      (commentStart s.input s.current = false →
        (Scanner.scan_token { s with start := s.current }).line = s.line +
          (sliceBytes s.input s.current
            (Scanner.scan_token { s with start := s.current }).current).countP
            (fun x => x == 10))) ∧
    (∀ (s : Scanner) (content rest : List Nat), s.current = s.start + 1 →
      s.input.drop s.start = 34 :: (content ++ 34 :: rest) →
      (∀ b ∈ content, b ≠ 34) →
      ∃ tok, (s.string).tokens = s.tokens ++ [tok] ∧
        tok.line = s.line + content.countP (fun x => x == 10)) := by
  refine ⟨?_, ?_, ?_, ?_⟩
  · intro input
    obtain ⟨hInv, hinp, hend, -⟩ := scanFinal_props input
    obtain ⟨h1, h2, h3, h4, h5, h6, h7⟩ := hInv
    refine ⟨rfl, ?_, ?_⟩
    · show List.Pairwise _ (((scanFinal input).tokens ++
        [(⟨TokenType.EOF, [], LitVal.str [], (scanFinal input).line⟩ : Token)]).map Token.line)
      rw [List.map_append, List.pairwise_append]
      refine ⟨h5, by simp, ?_⟩
      intro a ha b hb
      simp only [List.map_cons, List.map_nil, List.mem_singleton] at hb
      subst hb
      obtain ⟨u, hu, rfl⟩ := List.mem_map.mp ha
      exact (h4 u hu).2.1
    · intro t ht
      rcases List.mem_append.mp ht with h | h
      · exact (h4 t h).1
      · simp only [List.mem_singleton] at h
        subst h
        exact h3
  · intro s
    rw [skip_comment_eq]
  · intro s hInv hend
    obtain ⟨-, -, -, htoks, -, h6, h7⟩ := scan_token_step s hInv hend
    exact ⟨htoks, h6, h7⟩
  · intro s content rest h1 h2 h3
    refine ⟨⟨TokenType.STRING, 34 :: (content ++ [34]), LitVal.str content,
      s.line + content.countP (fun x => x == 10)⟩, ?_, rfl⟩
    rw [string_success s content rest h1 h2 h3]

/-- C3 witness: the amended claim's per-iteration accounting applied to
the concrete initial state on the one-byte input holding a single newline
(the counter moves from 1 by exactly the newline count of the consumed
slice, and any pushed token would carry the post-push counter), and its
string part applied to the concrete one-character string "a" in quotes. -/
theorem c3_witness :
    (ScanInv (initScanner [10]) ∧ (initScanner [10]).is_at_end = false ∧
      (∃ l, (Scanner.scan_token { initScanner [10] with start := 0 }).tokens = [] ++ l ∧
        ∀ t ∈ l, t.line = (Scanner.scan_token { initScanner [10] with start := 0 }).line) ∧
      (commentStart [10] 0 = true →
        (Scanner.scan_token { initScanner [10] with start := 0 }).line = 1) ∧
      (commentStart [10] 0 = false →
        (Scanner.scan_token { initScanner [10] with start := 0 }).line = 1 +
          (sliceBytes [10] 0
            (Scanner.scan_token { initScanner [10] with start := 0 }).current).countP
            (fun x => x == 10))) ∧
    ((⟨[34, 97, 34], [], 0, 1, 1, [], true⟩ : Scanner).current =
      (⟨[34, 97, 34], [], 0, 1, 1, [], true⟩ : Scanner).start + 1) ∧
    (([34, 97, 34] : List Nat).drop 0 = 34 :: ([97] ++ 34 :: [])) ∧
    (∀ b ∈ ([97] : List Nat), b ≠ 34) ∧
    (∃ tok, ((⟨[34, 97, 34], [], 0, 1, 1, [], true⟩ : Scanner).string).tokens =
      [] ++ [tok] ∧ tok.line = 1 + ([97] : List Nat).countP (fun x => x == 10)) :=
  ⟨⟨initScanner_inv [10], by decide,
    c3_lines_amended.2.2.1 (initScanner [10]) (initScanner_inv [10]) (by decide)⟩,
    rfl, by decide, by decide,
    c3_lines_amended.2.2.2 ⟨[34, 97, 34], [], 0, 1, 1, [], true⟩ [97] [] rfl (by decide)
      (by decide)⟩

/-- C4 counterexample: the claim says an IDENT token's literal is the
identifier text itself; scanning "ab" produces an IDENT token whose
literal is the empty payload (because `Scanner::ident` emits tokens via
`add_empty_token`), not the text [97, 98]. -/
theorem c4_counterexample :
    scan_tokens [97, 98] = [⟨TokenType.IDENT, [97, 98], LitVal.str [], 1⟩,
      ⟨TokenType.EOF, [], LitVal.str [], 1⟩] ∧
    ¬ (LitVal.str [] = LitVal.str [97, 98]) := by
  constructor
  · decide
  · decide

/-- C4 (amended): every emitted token's literal payload is determined by
its type — STRING carries a text payload, NUM a numeric payload, and every
other category (including IDENT) carries the empty payload that
`Token::new` boxes. -/
theorem c4_literal_amended :
    ∀ input : List Nat, ∀ t ∈ scan_tokens input, litMatches t.token_type t.literal = true := by
  intro input t ht
  obtain ⟨hInv, -, -, -⟩ := scanFinal_props input
  obtain ⟨-, -, -, h4, -, -, -⟩ := hInv
  rcases List.mem_append.mp ht with h | h
  · exact (h4 t h).2.2
  · simp only [List.mem_singleton] at h
    subst h
    rfl

/-- C4 witness: the amended claim applied to the IDENT token of "ab". -/
theorem c4_witness :
    (⟨TokenType.IDENT, [97, 98], LitVal.str [], 1⟩ : Token) ∈ scan_tokens [97, 98] ∧
    litMatches TokenType.IDENT (LitVal.str []) = true :=
  ⟨by decide, c4_literal_amended [97, 98] ⟨TokenType.IDENT, [97, 98], LitVal.str [], 1⟩
    (by decide)⟩

/-- C5 counterexample: the claim says an unterminated string is tagged with
the line of its opening quote.  Scanning a quote followed by a newline
reports the unterminated string at line 2 (the line reached at end of
input), not line 1 where the quote opened. -/
theorem c5_counterexample :
    scanErrors [34, 10] = [(2, "Unterminated string.")] ∧ ¬ ((2 : Nat) = 1) := by
  constructor
  · decide
  · decide

/-- C5 (amended): every lexical error produces exactly one report — an
unexpected character is tagged with the current line counter, an
unterminated string with the counter at end of input (after counting the
newlines inside the unterminated literal) — no token is emitted for the
failed lexeme, already-accumulated tokens are never removed, and the scan
still ends with an EOF token appended. -/
theorem c5_errors_amended :
    (∀ s : Scanner, s.current < s.input.length →
      recognized (s.input.getD s.current 0) = false →
      Scanner.scan_token { s with start := s.current } =
        { s with
          start := s.current, current := s.current + 1,
          errors := s.errors ++ [(s.line, "Unexpected char")] }) ∧
    (∀ s : Scanner, s.current ≤ s.input.length →
      (∀ b ∈ s.input.drop s.current, b ≠ 34) →
      s.string =
        { s with
          current := s.input.length,
          line := s.line + (s.input.drop s.current).countP (fun x => x == 10),
          errors := s.errors ++
            [(s.line + (s.input.drop s.current).countP (fun x => x == 10),
              "Unterminated string.")] }) ∧
    (∀ s : Scanner, ScanInv s → s.is_at_end = false →
      ∃ l, (Scanner.scan_token { s with start := s.current }).tokens = s.tokens ++ l) ∧
    (∀ input : List Nat, ∃ l, scan_tokens input =
      l ++ [⟨TokenType.EOF, [], LitVal.str [], (scanFinal input).line⟩]) := by
  refine ⟨scan_token_unexpected, string_unterminated, ?_, ?_⟩
  · intro s hInv hend
    obtain ⟨l, hl, -⟩ := (scan_token_step s hInv hend).2.2.2.1
    exact ⟨l, hl⟩
  · intro input
    exact ⟨(scanFinal input).tokens, rfl⟩

/-- C5 witness: the amended claim's unexpected-character part applied to
the single byte 64 ('@'). -/
theorem c5_witness :
    ((⟨[64], [], 0, 0, 1, [], true⟩ : Scanner).current <
      (⟨[64], [], 0, 0, 1, [], true⟩ : Scanner).input.length) ∧
    (recognized (([64] : List Nat).getD 0 0) = false) ∧
    (Scanner.scan_token { (⟨[64], [], 0, 0, 1, [], true⟩ : Scanner) with start := 0 } =
      { (⟨[64], [], 0, 0, 1, [], true⟩ : Scanner) with
        start := 0, current := 0 + 1, errors := [] ++ [(1, "Unexpected char")] }) :=
  ⟨by decide, by decide,
    c5_errors_amended.1 ⟨[64], [], 0, 0, 1, [], true⟩ (by decide) (by decide)⟩

/-- C6: a numeric literal consumes the maximal digit run, then a decimal
point only when it is immediately followed by a digit (then a further
maximal run); the matched text is exactly the spec's maximal-munch lexeme
`specNumLex`, the parse of that full text always succeeds, and its value
is stored as the NUM token's literal.  Concretely, "1." yields a NUM token
with lexeme "1" followed by a DOT token. -/
theorem c6_number_maximal_munch :
    (scan_tokens [49, 46] = [⟨TokenType.NUM, [49], LitVal.num 1, 1⟩,
      ⟨TokenType.DOT, [46], LitVal.str [], 1⟩, ⟨TokenType.EOF, [], LitVal.str [], 1⟩]) ∧
    (∀ s : Scanner, s.current = s.start + 1 → s.current ≤ s.input.length →
      is_digit (s.input.getD s.start 0) = true →
      ∃ q, numParse (specNumLex (s.input.drop s.start)) = some q ∧
        s.number =
          { s with
            current := s.start + (specNumLex (s.input.drop s.start)).length,
            tokens := s.tokens ++ [⟨TokenType.NUM, specNumLex (s.input.drop s.start),
              LitVal.num q, s.line⟩] }) := by
  constructor
  · decide
  · intro s h1 h2 h3
    obtain ⟨q, hq, -, heq⟩ := number_spec s h1 h2 h3
    exact ⟨q, hq, heq⟩

/-- C6 witness: the general part applied to the one-digit input "5". -/
theorem c6_witness :
    ((⟨[53], [], 0, 1, 1, [], true⟩ : Scanner).current =
      (⟨[53], [], 0, 1, 1, [], true⟩ : Scanner).start + 1) ∧
    ((⟨[53], [], 0, 1, 1, [], true⟩ : Scanner).current ≤ ([53] : List Nat).length) ∧
    (is_digit (([53] : List Nat).getD 0 0) = true) ∧
    (∃ q, numParse (specNumLex (([53] : List Nat).drop 0)) = some q ∧
      Scanner.number ⟨[53], [], 0, 1, 1, [], true⟩ =
        { (⟨[53], [], 0, 1, 1, [], true⟩ : Scanner) with
          current := 0 + (specNumLex (([53] : List Nat).drop 0)).length,
          tokens := [] ++ [⟨TokenType.NUM, specNumLex (([53] : List Nat).drop 0),
            LitVal.num q, 1⟩] }) :=
  ⟨rfl, by decide, by decide,
    c6_number_maximal_munch.2 ⟨[53], [], 0, 1, 1, [], true⟩ rfl (by decide) (by decide)⟩

/-- C7: for every well-formed quoted string — an opening quote at `start`,
then `content` free of quote bytes, then a closing quote — the emitted
STRING token's literal is exactly the bytes strictly between the quotes
(no escape processing) and its lexeme is the same bytes including both
quote characters. -/
theorem c7_string_literal :
    ∀ (s : Scanner) (content rest : List Nat), s.current = s.start + 1 →
      s.input.drop s.start = 34 :: (content ++ 34 :: rest) →
      (∀ b ∈ content, b ≠ 34) →
      s.string =
        { s with
          current := s.start + (content.length + 2),
          line := s.line + content.countP (fun x => x == 10),
          tokens := s.tokens ++ [⟨TokenType.STRING, 34 :: (content ++ [34]),
            LitVal.str content, s.line + content.countP (fun x => x == 10)⟩] } :=
  fun s content rest h1 h2 h3 => string_success s content rest h1 h2 h3

/-- C7 witness: the claim applied to the concrete quoted string with
content "a". -/
theorem c7_witness :
    ((⟨[34, 97, 34], [], 0, 1, 1, [], true⟩ : Scanner).current =
      (⟨[34, 97, 34], [], 0, 1, 1, [], true⟩ : Scanner).start + 1) ∧
    (([34, 97, 34] : List Nat).drop 0 = 34 :: ([97] ++ 34 :: [])) ∧
    (∀ b ∈ ([97] : List Nat), b ≠ 34) ∧
    ((⟨[34, 97, 34], [], 0, 1, 1, [], true⟩ : Scanner).string =
      { (⟨[34, 97, 34], [], 0, 1, 1, [], true⟩ : Scanner) with
        current := 0 + (([97] : List Nat).length + 2),
        line := 1 + ([97] : List Nat).countP (fun x => x == 10),
        tokens := [] ++ [⟨TokenType.STRING, 34 :: ([97] ++ [34]), LitVal.str [97],
          1 + ([97] : List Nat).countP (fun x => x == 10)⟩] }) :=
  ⟨rfl, by decide, by decide,
    c7_string_literal ⟨[34, 97, 34], [], 0, 1, 1, [], true⟩ [97] [] rfl (by decide)
      (by decide)⟩

/-- C8: the scan is total and safe on every byte sequence: the scanning
loop always reaches end of input (it is a total function and its fuel
suffices), and the ghost flag certifying that every byte index and slice
was in bounds and that the numeric parse `unwrap` never failed is true. -/
theorem c8_scan_total_and_safe :
    ∀ input : List Nat, (scanFinal input).ok = true ∧ (scanFinal input).is_at_end = true :=
  fun input => ⟨((scanFinal_props input).1).1, (scanFinal_props input).2.2.1⟩

/-- C9 counterexample: the claim says error lines are strictly increasing
within one scan; two unexpected characters on the same line ("@@") produce
two reports both tagged line 1. -/
theorem c9_counterexample :
    scanErrors [64, 64] = [(1, "Unexpected char"), (1, "Unexpected char")] ∧
    ¬ List.Pairwise (fun a b => a.1 < b.1) (scanErrors [64, 64]) := by
  constructor
  · decide
  · decide

/-- C9 (amended): within a single scan the line numbers passed to the
diagnostic sink are non-decreasing (not strictly increasing). -/
theorem c9_error_lines_monotone :
    ∀ input : List Nat,
      List.Pairwise (fun a b => a ≤ b) ((scanErrors input).map Prod.fst) :=
  fun input => ((scanFinal_props input).1).2.2.2.2.2.2

/-- C10: a run of n bytes that are all ≥ 128 — in particular the bytes of
any non-ASCII UTF-8 character, whose encoding consists only of bytes
0x80–0xF4 — produces exactly n separate unexpected-character reports, all
tagged with the same line, consumes exactly those n bytes, and emits no
token. -/
theorem c10_non_ascii_bytes :
    ∀ (n : Nat) (s : Scanner), s.current + n ≤ s.input.length →
      (∀ k, k < n → 128 ≤ s.input.getD (s.current + k) 0) →
      (scan_iter n s).tokens = s.tokens ∧
      (scan_iter n s).errors = s.errors ++ List.replicate n (s.line, "Unexpected char") ∧
      (scan_iter n s).line = s.line ∧
      (scan_iter n s).current = s.current + n := by
  intro n s h1 h2
  apply scan_iter_unexpected n s h1
  intro k hk
  exact recognized_false_of_ge _ (h2 k hk)

/-- C10 witness: the two bytes of the UTF-8 encoding of 'é' produce two
reports at line 1 and no token. -/
theorem c10_witness :
    ((initScanner [195, 169]).current + 2 ≤ (initScanner [195, 169]).input.length) ∧
    (∀ k, k < 2 → 128 ≤ ([195, 169] : List Nat).getD (0 + k) 0) ∧
    ((scan_iter 2 (initScanner [195, 169])).tokens = [] ∧
      (scan_iter 2 (initScanner [195, 169])).errors =
        [] ++ List.replicate 2 (1, "Unexpected char") ∧
      (scan_iter 2 (initScanner [195, 169])).line = 1 ∧
      (scan_iter 2 (initScanner [195, 169])).current = 0 + 2) :=
  ⟨by decide, by decide,
    c10_non_ascii_bytes 2 (initScanner [195, 169]) (by decide) (by decide)⟩
